import Mathlib

/-
Verification development for the StudyTime scheduling system.

The repository ships the scheduler's design document
(src/SCHEDULER_IMPLEMENTATION.md) and the frontend callers
(src/StudyTime_V4/frontend/script.js, src/unnamed/part_000,
src/unnamed/part_001), but the engine itself (backend/scheduler.py) is not
part of the provided sources.  The engine is therefore modelled from the
specification (spec.md §3-§4), while the frontend helpers
(normalizeTimeInput, addTask / addCourse validation, handleEventMove) are
embedded directly from the JavaScript sources.

All times are minutes; a calendar date is a day index; a weekday is the day
index modulo 7.
-/

namespace StudyTime

/-- A half-open time interval [lo, hi) in minutes-of-day on one calendar
date (spec §3, TimeInterval). -/
structure Ival where
  lo : Nat
  hi : Nat
deriving DecidableEq, Repr

/-- Membership of a minute in an interval. -/
def Ival.memT (iv : Ival) (n : Nat) : Prop := iv.lo ≤ n ∧ n < iv.hi

instance (iv : Ival) (n : Nat) : Decidable (iv.memT n) :=
  inferInstanceAs (Decidable (_ ∧ _))

/-- Pointwise disjointness of two intervals. -/
def IvD (a b : Ival) : Prop := ∀ n, a.memT n → b.memT n → False

/-- Modelled from the spec: the interval-subtraction rule of §4.1 (the
engine source backend/scheduler.py is not in the provided tree).  A busy
interval b may (a) not overlap the free interval f (no change), (b) fully
contain it (removed), (c) be fully contained in it (split in two), or
(d) overlap one edge (truncated). -/
def Ival.minus (f b : Ival) : List Ival :=
  if b.hi ≤ f.lo ∨ f.hi ≤ b.lo then [f]
  else
    (if f.lo < b.lo then [⟨f.lo, b.lo⟩] else []) ++
    (if b.hi < f.hi then [⟨b.hi, f.hi⟩] else [])

/-- Modelled from the spec: subtracting one busy interval from a whole
free-interval list (§4.1 step 2). -/
def subIvals (free : List Ival) (b : Ival) : List Ival :=
  free.foldr (fun f acc => f.minus b ++ acc) []

theorem memT_of_mem_minus {f b iv : Ival} (h : iv ∈ f.minus b) {n : Nat}
    (hn : iv.memT n) : f.memT n ∧ ¬ b.memT n := by
  unfold Ival.minus at h
  by_cases hd : b.hi ≤ f.lo ∨ f.hi ≤ b.lo
  · simp only [if_pos hd, List.mem_singleton] at h
    subst h
    refine ⟨hn, ?_⟩
    rcases hn with ⟨h1, h2⟩
    rintro ⟨h3, h4⟩
    rcases hd with hd | hd <;> omega
  · simp only [if_neg hd, List.mem_append] at h
    push_neg at hd
    rcases hn with ⟨h1, h2⟩
    rcases h with h | h
    · by_cases hl : f.lo < b.lo
      · simp only [if_pos hl, List.mem_singleton] at h
        subst h
        simp only [Ival.memT] at h1 h2 ⊢
        constructor
        · exact ⟨h1, by omega⟩
        · rintro ⟨h3, h4⟩; omega
      · simp only [if_neg hl, List.not_mem_nil] at h
    · by_cases hr : b.hi < f.hi
      · simp only [if_pos hr, List.mem_singleton] at h
        subst h
        simp only [Ival.memT] at h1 h2 ⊢
        constructor
        · exact ⟨by omega, h2⟩
        · rintro ⟨h3, h4⟩; omega
      · simp only [if_neg hr, List.not_mem_nil] at h

theorem minus_pairwise (f b : Ival) (hb : b.lo < b.hi) :
    (f.minus b).Pairwise IvD := by
  unfold Ival.minus
  by_cases hd : b.hi ≤ f.lo ∨ f.hi ≤ b.lo
  · simp [hd]
  · simp only [if_neg hd]
    push_neg at hd
    by_cases hl : f.lo < b.lo <;> by_cases hr : b.hi < f.hi <;>
      simp [hl, hr, List.pairwise_append, IvD, Ival.memT] <;>
      intros <;> omega

theorem mem_subIvals {free : List Ival} {b iv : Ival}
    (h : iv ∈ subIvals free b) : ∃ f ∈ free, iv ∈ f.minus b := by
  induction free with
  | nil => simp [subIvals] at h
  | cons f fs ih =>
    simp only [subIvals, List.foldr_cons, List.mem_append] at h
    rcases h with h | h
    · exact ⟨f, List.mem_cons_self _ _, h⟩
    · obtain ⟨g, hg, hgm⟩ := ih h
      exact ⟨g, List.mem_cons_of_mem _ hg, hgm⟩

theorem memT_of_mem_subIvals {free : List Ival} {b iv : Ival}
    (h : iv ∈ subIvals free b) {n : Nat} (hn : iv.memT n) :
    (∃ f ∈ free, f.memT n) ∧ ¬ b.memT n := by
  obtain ⟨f, hf, hm⟩ := mem_subIvals h
  obtain ⟨h1, h2⟩ := memT_of_mem_minus hm hn
  exact ⟨⟨f, hf, h1⟩, h2⟩

theorem subIvals_pairwise {free : List Ival} {b : Ival}
    (hfree : free.Pairwise IvD) (hb : b.lo < b.hi) :
    (subIvals free b).Pairwise IvD := by
  induction free with
  | nil => simp [subIvals]
  | cons f fs ih =>
    rcases List.pairwise_cons.mp hfree with ⟨hhead, htail⟩
    simp only [subIvals, List.foldr_cons]
    rw [List.pairwise_append]
    refine ⟨minus_pairwise f b hb, ih htail, ?_⟩
    intro a ha c hc n hna hnc
    obtain ⟨haf, -⟩ := memT_of_mem_minus ha hna
    obtain ⟨⟨g, hg, hgm⟩, -⟩ := memT_of_mem_subIvals hc hnc
    exact hhead g hg n haf hgm

/-- Difficulty tier of a task (spec §3, DifficultyProfile). -/
inductive Difficulty
  | easy
  | medium
  | hard
deriving DecidableEq, Repr

/-- Minimum session length per difficulty (spec §3: Hard 60, Medium 45,
Easy 30). -/
def minSession : Difficulty → Nat
  | .hard => 60
  | .medium => 45
  | .easy => 30

/-- Maximum session length per difficulty (spec §3: Hard 120, Medium 90,
Easy 60). -/
def maxSession : Difficulty → Nat
  | .hard => 120
  | .medium => 90
  | .easy => 60

/-- Priority weight per difficulty (spec §3: Hard 2.0, Medium 1.5,
Easy 1.0). -/
def weightQ : Difficulty → ℚ
  | .hard => 2
  | .medium => 3 / 2
  | .easy => 1

/-- Integer score multiplier: 216000 / (1440 * weight).  216000 is the
least common denominator of the score formula scaled to integers, so
comparisons of scaled scores agree exactly with comparisons of the
rational scores (theorem scoreQ_eq_scaled below). -/
def scoreScale : Difficulty → Int
  | .hard => 75
  | .medium => 100
  | .easy => 150

/-- A unit of unscheduled work (spec §3, Task): total duration in minutes,
absolute deadline as calendar date plus minute-of-day, difficulty tier. -/
structure Task where
  duration : Nat
  dueDate : Nat
  dueMin : Nat
  dif : Difficulty
deriving DecidableEq, Repr

/-- The deadline instant in absolute minutes. -/
def dueAbs (t : Task) : Nat := 1440 * t.dueDate + t.dueMin

/-- User preferences (spec §4.1, §4.3): wake and sleep minute-of-day,
daily study cap in minutes, minimum usable block length. -/
structure Prefs where
  wake : Nat
  sleep : Nat
  cap : Nat
  minBlock : Nat
deriving DecidableEq, Repr

/-- The defaults named by the spec: wake 08:00, sleep 23:00, cap 8 hours,
minimum usable block 25 minutes. -/
def defaultPrefs : Prefs := ⟨480, 1380, 480, 25⟩

/-- A recurring weekly obligation (spec §3, FixedCommitment): the weekdays
it recurs on and its start/end minute-of-day. -/
structure Commitment where
  days : List Nat
  start : Nat
  stop : Nat
deriving DecidableEq, Repr

/-- One scheduling run's input: fixed commitments, tasks, preferences and
the explicit now instant (spec §6). -/
structure Input where
  commitments : List Commitment
  tasks : List Task
  prefs : Prefs
  nowDate : Nat
  nowMin : Nat
deriving DecidableEq, Repr

/-- The run's now instant in absolute minutes. -/
def nowAbs (inp : Input) : Nat := 1440 * inp.nowDate + inp.nowMin

/-- Modelled from the spec: availability for one date (§4.1; the engine
source backend/scheduler.py is not in the provided tree).  Start from the
wake-to-sleep window (clamped to the current time on the current date),
subtract every commitment recurring on the date's weekday, and discard
blocks shorter than the minimum usable block.  The AvailabilityMap is
represented as the total function from dates to interval lists; dates
outside the horizon are never consulted by the allocator. -/
def dayFree (inp : Input) (d : Nat) : List Ival :=
  let first := if d = inp.nowDate then max inp.prefs.wake inp.nowMin
               else inp.prefs.wake
  let base : List Ival := [⟨first, inp.prefs.sleep⟩]
  let free := (inp.commitments.filter (fun c => d % 7 ∈ c.days)).foldl
    (fun acc c => subIvals acc ⟨c.start, c.stop⟩) base
  free.filter (fun iv => inp.prefs.minBlock ≤ iv.hi - iv.lo)

/-- Modelled from the spec: the rational priority score of §4.2,
score = daysUntilDeadline / weight − duration / 1000, with
daysUntilDeadline in (possibly fractional) days. -/
def scoreQ (now : Nat) (t : Task) : ℚ :=
  ((dueAbs t : ℚ) - (now : ℚ)) / 1440 / weightQ t.dif -
    (t.duration : ℚ) / 1000

/-- The same score scaled by 216000 to an exact integer; used for the
comparisons inside the ranker. -/
def scaledScore (now : Nat) (t : Task) : Int :=
  ((dueAbs t : Int) - (now : Int)) * scoreScale t.dif -
    216 * (t.duration : Int)

/-- Strict ranking order of §4.2: lower score first, ties broken by the
earlier absolute deadline. -/
def rankLt (now : Nat) (t u : Task) : Prop :=
  scaledScore now t < scaledScore now u ∨
    (scaledScore now t = scaledScore now u ∧ dueAbs t < dueAbs u)

instance (now : Nat) (t u : Task) : Decidable (rankLt now t u) := by
  unfold rankLt; infer_instance

/-- A task paired with its position in the input list. -/
abbrev ITask := Nat × Task

/-- Stable insertion used by the ranker: the new element goes after every
element strictly ranked before it, so elements with fully equal keys keep
their input order. -/
def insertRanked (now : Nat) (x : ITask) : List ITask → List ITask
  | [] => [x]
  | y :: ys =>
    if rankLt now y.2 x.2 then y :: insertRanked now x ys else x :: y :: ys

/-- Modelled from the spec: the Priority Ranker of §4.2 as a stable
insertion sort by ascending score with deadline tie-break. -/
def rankTasks (now : Nat) (ts : List ITask) : List ITask :=
  ts.foldr (insertRanked now) []

/-- An output unit (spec §3, ScheduledSession): the task it belongs to,
its difficulty, its date and its half-open minute span. -/
structure Session where
  tid : Nat
  dif : Difficulty
  date : Nat
  lo : Nat
  hi : Nat
deriving DecidableEq, Repr

/-- A session's duration, end minus start. -/
def Session.dur (s : Session) : Nat := s.hi - s.lo

/-- Total minutes of a session list. -/
def sessMinutes (ss : List Session) : Nat := (ss.map Session.dur).sum

/-- Result of scanning one date's free intervals for one task. -/
structure ScanRes where
  ivals : List Ival
  sess : List Session
  remaining : Nat
  capRem : Nat
deriving Repr

/-- Usable length of an interval under an optional end-of-day limit (the
due time-of-day on the task's due date, no limit otherwise). -/
def effLen (limit : Option Nat) (iv : Ival) : Nat :=
  (match limit with
   | none => iv.hi
   | some l => min iv.hi l) - iv.lo

/-- Modelled from the spec: the chunk size rule of §4.3 step 3, the
minimum of the remaining task minutes, the usable interval length, the
difficulty's maximum session length, and the remaining daily cap. -/
def chunkSize (dif : Difficulty) (limit : Option Nat)
    (remaining capRem : Nat) (iv : Ival) : Nat :=
  min (min remaining (effLen limit iv)) (min (maxSession dif) capRem)

/-- Modelled from the spec: one chronological scan over a date's free
intervals (§4.3 step 3).  Each interval yields at most one chunk; a chunk
below the difficulty minimum is skipped unless it finishes the task; an
emitted chunk starts at the interval start and is removed from the free
list by the §4.1 subtraction rule (the chunk lies inside the scanned
interval, so the later — disjoint — intervals are unchanged by that
subtraction).  Scanning stops when the task has no minutes left. -/
def allocIvals (tid : Nat) (dif : Difficulty) (d : Nat)
    (limit : Option Nat) : Nat → Nat → List Ival → ScanRes
  | remaining, capRem, [] => ⟨[], [], remaining, capRem⟩
  | remaining, capRem, iv :: ivs =>
    if remaining = 0 then ⟨iv :: ivs, [], remaining, capRem⟩
    else
      let c := chunkSize dif limit remaining capRem iv
      if c = 0 ∨ (c < minSession dif ∧ c < remaining) then
        let r := allocIvals tid dif d limit remaining capRem ivs
        ⟨iv :: r.ivals, r.sess, r.remaining, r.capRem⟩
      else
        let r := allocIvals tid dif d limit (remaining - c) (capRem - c) ivs
        ⟨Ival.minus iv ⟨iv.lo, iv.lo + c⟩ ++ r.ivals,
         ⟨tid, dif, d, iv.lo, iv.lo + c⟩ :: r.sess, r.remaining, r.capRem⟩

/-- The allocator's mutable state (spec §3, AvailabilityMap, plus the
per-date cumulative allocated minutes of §4.3). -/
structure AllocSt where
  avail : Nat → List Ival
  alloc : Nat → Nat

/-- Modelled from the spec: allocation on one candidate date (§4.3 steps
2-3).  A date whose cumulative allocated minutes already meets the daily
cap is skipped entirely; otherwise the date's free intervals are scanned,
the due time-of-day limits sessions on the due date, and the state is
updated with the new free list and the date's new cumulative total. -/
def allocDate (t : ITask) (p : Prefs) (d : Nat) (remaining : Nat)
    (st : AllocSt) : AllocSt × List Session × Nat :=
  if p.cap ≤ st.alloc d then (st, [], remaining)
  else
    let limit : Option Nat :=
      if d = t.2.dueDate then some t.2.dueMin else none
    let r := allocIvals t.1 t.2.dif d limit remaining (p.cap - st.alloc d)
      (st.avail d)
    (⟨fun e => if e = d then r.ivals else st.avail e,
      fun e => if e = d then st.alloc d + sessMinutes r.sess
               else st.alloc e⟩,
     r.sess, r.remaining)

/-- Modelled from the spec: iteration over a task's candidate dates in
ascending order (§4.3 steps 1 and 4); stops once no minutes remain. -/
def allocDates (t : ITask) (p : Prefs) :
    List Nat → Nat → AllocSt → AllocSt × List Session × Nat
  | [], remaining, st => (st, [], remaining)
  | d :: ds, remaining, st =>
    if remaining = 0 then (st, [], remaining)
    else
      let r1 := allocDate t p d remaining st
      let r2 := allocDates t p ds r1.2.2 r1.1
      (r2.1, r1.2.1 ++ r2.2.1, r2.2.2)

/-- The ascending list of calendar dates from start to last, inclusive. -/
def datesUpTo (start last : Nat) : List Nat :=
  (List.range (last + 1 - start)).map (· + start)

/-- Modelled from the spec: allocation of one ranked task over its
candidate dates, from now's date through its due date (§4.3 step 1). -/
def allocTask (nowDate : Nat) (p : Prefs) (t : ITask) (st : AllocSt) :
    AllocSt × List Session × Nat :=
  allocDates t p (datesUpTo nowDate t.2.dueDate) t.2.duration st

/-- A task's final classification (spec §3, TaskOutcome). -/
inductive Status
  | scheduled
  | incomplete
  | overdue
deriving DecidableEq, Repr

/-- Per-task outcome: the task (with its input position), its sessions in
emission order, its unplaced minutes and its status. -/
structure Outcome where
  tid : Nat
  task : Task
  sessions : List Session
  remaining : Nat
  status : Status
deriving DecidableEq, Repr

/-- Modelled from the spec: the Greedy Allocator's pass over the ranked
tasks (§4.3), threading the shared state and classifying each pending
task as scheduled (fully placed) or incomplete (§4.4). -/
def runTasks (nowDate : Nat) (p : Prefs) :
    List ITask → AllocSt → AllocSt × List Outcome
  | [], st => (st, [])
  | t :: ts, st =>
    let r1 := allocTask nowDate p t st
    let r2 := runTasks nowDate p ts r1.1
    (r2.1,
     ⟨t.1, t.2, r1.2.1, r1.2.2,
      if r1.2.2 = 0 then .scheduled else .incomplete⟩ :: r2.2)

/-- Pairs every task with its input position, starting at index i. -/
def indexTasks : Nat → List Task → List ITask
  | _, [] => []
  | i, t :: ts => (i, t) :: indexTasks (i + 1) ts

/-- Strict chronological order on sessions, date-major. -/
def sessLt (s1 s2 : Session) : Prop :=
  s1.date < s2.date ∨ (s1.date = s2.date ∧ s1.lo < s2.lo)

instance (s1 s2 : Session) : Decidable (sessLt s1 s2) := by
  unfold sessLt; infer_instance

/-- Stable insertion for the aggregator's date-ordered presentation
list. -/
def insertSess (x : Session) : List Session → List Session
  | [] => [x]
  | y :: ys => if sessLt y x then y :: insertSess x ys else x :: y :: ys

/-- Modelled from the spec: the Result Aggregator's flattened,
date-ordered session list (§4.4), as a stable insertion sort. -/
def sortSessions (l : List Session) : List Session :=
  l.foldr insertSess []

/-- The flattened sessions of a list of outcomes, in emission order. -/
def sessionsOf (outs : List Outcome) : List Session :=
  outs.foldr (fun o acc => o.sessions ++ acc) []

/-- Count of outcomes carrying a given status. -/
def countStatus (s : Status) (outs : List Outcome) : Nat :=
  (outs.filter (fun o => o.status = s)).length

/-- The engine's output (spec §4.4, §6): the presentation session list,
the per-task outcomes and the summary counts. -/
structure Output where
  sessions : List Session
  outcomes : List Outcome
  total : Nat
  nScheduled : Nat
  nIncomplete : Nat
  nOverdue : Nat
deriving DecidableEq, Repr

/-- Modelled from the spec: the whole engine (§2, §4; the engine source
backend/scheduler.py is not in the provided tree).  Tasks already past
their deadline at run start are routed directly to overdue and never
allocated; the pending tasks are ranked and greedily allocated in rank
order against the availability map; the aggregator produces the summary
counts and the date-ordered session list.  The computation is a pure
function of the input record, which includes the explicit now instant. -/
def generateSchedule (inp : Input) : Output :=
  let now := nowAbs inp
  let indexed := indexTasks 0 inp.tasks
  let pending := indexed.filter (fun t => now ≤ dueAbs t.2)
  let lateTasks := indexed.filter (fun t => dueAbs t.2 < now)
  let ranked := rankTasks now pending
  let st0 : AllocSt := ⟨fun d => dayFree inp d, fun _ => 0⟩
  let run := runTasks inp.nowDate inp.prefs ranked st0
  let lateOuts := lateTasks.map
    (fun t => Outcome.mk t.1 t.2 [] t.2.duration .overdue)
  let outs := run.2 ++ lateOuts
  { sessions := sortSessions (sessionsOf run.2)
    outcomes := outs
    total := inp.tasks.length
    nScheduled := countStatus .scheduled outs
    nIncomplete := countStatus .incomplete outs
    nOverdue := countStatus .overdue outs }

theorem chunkSize_le_rem (dif : Difficulty) (limit : Option Nat)
    (rem cr : Nat) (iv : Ival) :
    chunkSize dif limit rem cr iv ≤ rem :=
  le_trans (min_le_left _ _) (min_le_left _ _)

theorem chunkSize_le_cap (dif : Difficulty) (limit : Option Nat)
    (rem cr : Nat) (iv : Ival) :
    chunkSize dif limit rem cr iv ≤ cr :=
  le_trans (min_le_right _ _) (min_le_right _ _)

theorem chunkSize_le_max (dif : Difficulty) (limit : Option Nat)
    (rem cr : Nat) (iv : Ival) :
    chunkSize dif limit rem cr iv ≤ maxSession dif :=
  le_trans (min_le_right _ _) (min_le_left _ _)

theorem chunkSize_le_eff (dif : Difficulty) (limit : Option Nat)
    (rem cr : Nat) (iv : Ival) :
    chunkSize dif limit rem cr iv ≤ effLen limit iv :=
  le_trans (min_le_left _ _) (min_le_right _ _)

theorem chunkSize_in_ival (dif : Difficulty) (limit : Option Nat)
    (rem cr : Nat) (iv : Ival)
    (h : chunkSize dif limit rem cr iv ≠ 0) :
    iv.lo + chunkSize dif limit rem cr iv ≤ iv.hi ∧
      (∀ l, limit = some l →
        iv.lo + chunkSize dif limit rem cr iv ≤ l) := by
  have he := chunkSize_le_eff dif limit rem cr iv
  cases limit with
  | none =>
    simp only [effLen] at he
    refine ⟨by omega, ?_⟩
    intro l hl
    exact absurd hl (by simp)
  | some l =>
    simp only [effLen] at he
    have h1 : min iv.hi l ≤ iv.hi := min_le_left _ _
    have h2 : min iv.hi l ≤ l := min_le_right _ _
    refine ⟨by omega, ?_⟩
    intro l2 hl2
    injection hl2 with hl2
    omega

theorem allocIvals_rem_zero (tid : Nat) (dif : Difficulty) (d : Nat)
    (limit : Option Nat) (cr : Nat) (ivs : List Ival) :
    (allocIvals tid dif d limit 0 cr ivs).sess = [] := by
  cases ivs <;> simp [allocIvals]

theorem allocIvals_acc (tid : Nat) (dif : Difficulty) (d : Nat)
    (limit : Option Nat) :
    ∀ (rem cr : Nat) (ivs : List Ival),
    (allocIvals tid dif d limit rem cr ivs).remaining +
        sessMinutes (allocIvals tid dif d limit rem cr ivs).sess = rem ∧
    (allocIvals tid dif d limit rem cr ivs).capRem +
        sessMinutes (allocIvals tid dif d limit rem cr ivs).sess = cr ∧
    (∀ s ∈ (allocIvals tid dif d limit rem cr ivs).sess,
       0 < s.dur ∧ s.dur ≤ maxSession dif ∧
       (∀ l, limit = some l → s.hi ≤ l)) ∧
    (∀ s ∈ (allocIvals tid dif d limit rem cr ivs).sess.dropLast,
       minSession dif ≤ s.dur) ∧
    ((allocIvals tid dif d limit rem cr ivs).remaining ≠ 0 →
       ∀ s ∈ (allocIvals tid dif d limit rem cr ivs).sess,
         minSession dif ≤ s.dur) := by
  intro rem cr ivs
  induction ivs generalizing rem cr with
  | nil => simp [allocIvals, sessMinutes]
  | cons iv ivs ih =>
    by_cases h0 : rem = 0
    · subst h0
      simp [allocIvals, sessMinutes]
    · by_cases hskip : chunkSize dif limit rem cr iv = 0 ∨
        (chunkSize dif limit rem cr iv < minSession dif ∧
         chunkSize dif limit rem cr iv < rem)
      · have hres : allocIvals tid dif d limit rem cr (iv :: ivs) =
            ⟨iv :: (allocIvals tid dif d limit rem cr ivs).ivals,
             (allocIvals tid dif d limit rem cr ivs).sess,
             (allocIvals tid dif d limit rem cr ivs).remaining,
             (allocIvals tid dif d limit rem cr ivs).capRem⟩ := by
          simp only [allocIvals, if_neg h0, if_pos hskip]
        rw [hres]
        exact ih rem cr
      · set c := chunkSize dif limit rem cr iv with hc
        have hres : allocIvals tid dif d limit rem cr (iv :: ivs) =
            ⟨Ival.minus iv ⟨iv.lo, iv.lo + c⟩ ++
               (allocIvals tid dif d limit (rem - c) (cr - c) ivs).ivals,
             ⟨tid, dif, d, iv.lo, iv.lo + c⟩ ::
               (allocIvals tid dif d limit (rem - c) (cr - c) ivs).sess,
             (allocIvals tid dif d limit (rem - c) (cr - c) ivs).remaining,
             (allocIvals tid dif d limit (rem - c) (cr - c) ivs).capRem⟩ := by
          simp only [allocIvals, if_neg h0, if_neg hskip]
        push_neg at hskip
        obtain ⟨hc0, hcmin⟩ := hskip
        have hrem := chunkSize_le_rem dif limit rem cr iv
        have hcap := chunkSize_le_cap dif limit rem cr iv
        have hmax := chunkSize_le_max dif limit rem cr iv
        obtain ⟨hin, hlim⟩ := chunkSize_in_ival dif limit rem cr iv hc0
        rw [← hc] at hrem hcap hmax hin hlim
        obtain ⟨ih1, ih2, ih3, ih4, ih5⟩ := ih (rem - c) (cr - c)
        have hdur : Session.dur ⟨tid, dif, d, iv.lo, iv.lo + c⟩ = c := by
          simp [Session.dur]
        refine ⟨?_, ?_, ?_, ?_, ?_⟩
        · rw [hres]
          simp only [sessMinutes, List.map_cons, List.sum_cons, hdur]
          simp only [sessMinutes] at ih1
          omega
        · rw [hres]
          simp only [sessMinutes, List.map_cons, List.sum_cons, hdur]
          simp only [sessMinutes] at ih2
          omega
        · rw [hres]
          intro s hs
          rcases List.mem_cons.mp hs with rfl | hs
          · refine ⟨by simpa [hdur] using Nat.pos_of_ne_zero hc0,
              by simpa [hdur] using hmax, ?_⟩
            intro l hl
            exact hlim l hl
          · exact ih3 s hs
        · rw [hres]
          rcases hss : (allocIvals tid dif d limit (rem - c) (cr - c)
              ivs).sess with _ | ⟨x, xs⟩
          · simp
          · intro s hs
            rw [hss] at ih3 ih4
            rw [List.dropLast_cons₂] at hs
            rcases List.mem_cons.mp hs with rfl | hs
            · have hnz : rem - c ≠ 0 := by
                intro h
                rw [h, allocIvals_rem_zero] at hss
                exact List.noConfusion hss
              have hminc : minSession dif ≤ c := by
                rcases Nat.lt_or_ge c (minSession dif) with h | h
                · exact absurd (hcmin h) (by omega)
                · exact h
              simpa [hdur] using hminc
            · exact ih4 s hs
        · rw [hres]
          intro hnz s hs
          have hnz2 : (allocIvals tid dif d limit (rem - c) (cr - c)
              ivs).remaining ≠ 0 := hnz
          have hle : (allocIvals tid dif d limit (rem - c) (cr - c)
              ivs).remaining ≤ rem - c := by
            simp only [sessMinutes] at ih1
            omega
          have hnzc : rem - c ≠ 0 := by omega
          rcases List.mem_cons.mp hs with rfl | hs
          · have hminc : minSession dif ≤ c := by
              rcases Nat.lt_or_ge c (minSession dif) with h | h
              · exact absurd (hcmin h) (by omega)
              · exact h
            simpa [hdur] using hminc
          · exact ih5 hnz2 s hs

/-- Arithmetic disjointness of two session spans. -/
def arithD (s1 s2 : Session) : Prop := s1.hi ≤ s2.lo ∨ s2.hi ≤ s1.lo

theorem allocIvals_disj (tid : Nat) (dif : Difficulty) (d : Nat)
    (limit : Option Nat) :
    ∀ (rem cr : Nat) (ivs : List Ival), ivs.Pairwise IvD →
    (∀ s ∈ (allocIvals tid dif d limit rem cr ivs).sess,
       s.tid = tid ∧ s.dif = dif ∧ s.date = d) ∧
    (∀ iv ∈ (allocIvals tid dif d limit rem cr ivs).ivals,
       ∀ n, iv.memT n → ∃ j ∈ ivs, j.memT n) ∧
    (∀ s ∈ (allocIvals tid dif d limit rem cr ivs).sess,
       ∀ n, s.lo ≤ n → n < s.hi → ∃ j ∈ ivs, j.memT n) ∧
    ((allocIvals tid dif d limit rem cr ivs).ivals).Pairwise IvD ∧
    (∀ s ∈ (allocIvals tid dif d limit rem cr ivs).sess,
       ∀ iv ∈ (allocIvals tid dif d limit rem cr ivs).ivals,
       ∀ n, s.lo ≤ n → n < s.hi → iv.memT n → False) ∧
    ((allocIvals tid dif d limit rem cr ivs).sess).Pairwise arithD := by
  intro rem cr ivs
  induction ivs generalizing rem cr with
  | nil =>
    intro _
    simp [allocIvals]
  | cons iv ivs ih =>
    intro hpw
    rcases List.pairwise_cons.mp hpw with ⟨hhead, htail⟩
    by_cases h0 : rem = 0
    · subst h0
      have hres : allocIvals tid dif d limit 0 cr (iv :: ivs) =
          ⟨iv :: ivs, [], 0, cr⟩ := by
        simp [allocIvals]
      rw [hres]
      refine ⟨by simp, ?_, by simp, hpw, by simp, by simp⟩
      intro j hj n hn
      exact ⟨j, hj, hn⟩
    · by_cases hskip : chunkSize dif limit rem cr iv = 0 ∨
        (chunkSize dif limit rem cr iv < minSession dif ∧
         chunkSize dif limit rem cr iv < rem)
      · have hres : allocIvals tid dif d limit rem cr (iv :: ivs) =
            ⟨iv :: (allocIvals tid dif d limit rem cr ivs).ivals,
             (allocIvals tid dif d limit rem cr ivs).sess,
             (allocIvals tid dif d limit rem cr ivs).remaining,
             (allocIvals tid dif d limit rem cr ivs).capRem⟩ := by
          simp only [allocIvals, if_neg h0, if_pos hskip]
        rw [hres]
        obtain ⟨ihA, ihB, ihC, ihD, ihE, ihF⟩ := ih rem cr htail
        refine ⟨ihA, ?_, ?_, ?_, ?_, ihF⟩
        · intro j hj n hn
          rcases List.mem_cons.mp hj with rfl | hj
          · exact ⟨j, List.mem_cons_self _ _, hn⟩
          · obtain ⟨k, hk, hkn⟩ := ihB j hj n hn
            exact ⟨k, List.mem_cons_of_mem _ hk, hkn⟩
        · intro s hs n h1 h2
          obtain ⟨k, hk, hkn⟩ := ihC s hs n h1 h2
          exact ⟨k, List.mem_cons_of_mem _ hk, hkn⟩
        · refine List.pairwise_cons.mpr ⟨?_, ihD⟩
          intro x hx n hn hxn
          obtain ⟨k, hk, hkn⟩ := ihB x hx n hxn
          exact hhead k hk n hn hkn
        · intro s hs j hj n h1 h2 hjn
          rcases List.mem_cons.mp hj with rfl | hj
          · obtain ⟨k, hk, hkn⟩ := ihC s hs n h1 h2
            exact hhead k hk n hjn hkn
          · exact ihE s hs j hj n h1 h2 hjn
      · set c := chunkSize dif limit rem cr iv with hc
        have hres : allocIvals tid dif d limit rem cr (iv :: ivs) =
            ⟨Ival.minus iv ⟨iv.lo, iv.lo + c⟩ ++
               (allocIvals tid dif d limit (rem - c) (cr - c) ivs).ivals,
             ⟨tid, dif, d, iv.lo, iv.lo + c⟩ ::
               (allocIvals tid dif d limit (rem - c) (cr - c) ivs).sess,
             (allocIvals tid dif d limit (rem - c) (cr - c) ivs).remaining,
             (allocIvals tid dif d limit (rem - c) (cr - c) ivs).capRem⟩ := by
          simp only [allocIvals, if_neg h0, if_neg hskip]
        rw [hres]
        push_neg at hskip
        obtain ⟨hc0, -⟩ := hskip
        obtain ⟨hin, -⟩ := chunkSize_in_ival dif limit rem cr iv hc0
        rw [← hc] at hin
        have hcpos : 0 < c := Nat.pos_of_ne_zero hc0
        obtain ⟨ihA, ihB, ihC, ihD, ihE, ihF⟩ := ih (rem - c) (cr - c) htail
        obtain ⟨-, -, hdb, -, -⟩ :=
          allocIvals_acc tid dif d limit (rem - c) (cr - c) ivs
        have hspan : ∀ n, iv.lo ≤ n → n < iv.lo + c → iv.memT n := by
          intro n h1 h2
          exact ⟨h1, by omega⟩
        refine ⟨?_, ?_, ?_, ?_, ?_, ?_⟩
        · intro s hs
          rcases List.mem_cons.mp hs with rfl | hs
          · exact ⟨rfl, rfl, rfl⟩
          · exact ihA s hs
        · intro j hj n hn
          rcases List.mem_append.mp hj with hj | hj
          · obtain ⟨h1, -⟩ := memT_of_mem_minus hj hn
            exact ⟨iv, List.mem_cons_self _ _, h1⟩
          · obtain ⟨k, hk, hkn⟩ := ihB j hj n hn
            exact ⟨k, List.mem_cons_of_mem _ hk, hkn⟩
        · intro s hs n h1 h2
          rcases List.mem_cons.mp hs with rfl | hs
          · exact ⟨iv, List.mem_cons_self _ _, hspan n h1 h2⟩
          · obtain ⟨k, hk, hkn⟩ := ihC s hs n h1 h2
            exact ⟨k, List.mem_cons_of_mem _ hk, hkn⟩
        · rw [List.pairwise_append]
          refine ⟨minus_pairwise iv ⟨iv.lo, iv.lo + c⟩ (by simpa using hcpos),
            ihD, ?_⟩
          intro a ha b hb n hna hnb
          obtain ⟨h1, -⟩ := memT_of_mem_minus ha hna
          obtain ⟨k, hk, hkn⟩ := ihB b hb n hnb
          exact hhead k hk n h1 hkn
        · intro s hs j hj n h1 h2 hjn
          rcases List.mem_cons.mp hs with rfl | hs
          · rcases List.mem_append.mp hj with hj | hj
            · obtain ⟨-, hnotb⟩ := memT_of_mem_minus hj hjn
              exact hnotb ⟨h1, h2⟩
            · obtain ⟨k, hk, hkn⟩ := ihB j hj n hjn
              exact hhead k hk n (hspan n h1 h2) hkn
          · rcases List.mem_append.mp hj with hj | hj
            · obtain ⟨hjn2, -⟩ := memT_of_mem_minus hj hjn
              obtain ⟨k, hk, hkn⟩ := ihC s hs n h1 h2
              exact hhead k hk n hjn2 hkn
            · exact ihE s hs j hj n h1 h2 hjn
        · refine List.pairwise_cons.mpr ⟨?_, ihF⟩
          intro s2 hs2
          by_contra hno
          unfold arithD at hno
          push_neg at hno
          simp only at hno
          obtain ⟨hn1, hn2⟩ := hno
          obtain ⟨hs2pos, -, -⟩ := hdb s2 hs2
          have hs2ne : s2.lo < s2.hi := by
            simp only [Session.dur] at hs2pos
            omega
          set n := max (iv.lo) s2.lo with hn
          have hin1 : iv.lo ≤ n ∧ n < iv.lo + c := by
            constructor
            · exact le_max_left _ _
            · have := max_lt (by omega : iv.lo < iv.lo + c) hn1
              omega
          have hin2 : s2.lo ≤ n ∧ n < s2.hi := by
            constructor
            · exact le_max_right _ _
            · have := max_lt hn2 hs2ne
              omega
          obtain ⟨k, hk, hkn⟩ := ihC s2 hs2 n hin2.1 hin2.2
          exact hhead k hk n (hspan n hin1.1 hin1.2) hkn

/-- Disjointness of two sessions when they fall on the same date. -/
def SessD (s1 s2 : Session) : Prop := s1.date = s2.date → arithD s1 s2

/-- The allocator's running invariant: every date's free list is pairwise
disjoint, every emitted session is nonempty, no emitted session meets any
current free interval of its date, and the emitted sessions are pairwise
disjoint per date. -/
def StInv (st : AllocSt) (ss : List Session) : Prop :=
  (∀ e, (st.avail e).Pairwise IvD) ∧
  (∀ s ∈ ss, s.lo < s.hi) ∧
  (∀ s ∈ ss, ∀ iv ∈ st.avail s.date,
     ∀ n, s.lo ≤ n → n < s.hi → iv.memT n → False) ∧
  ss.Pairwise SessD

/-- The cap invariant: each date's cumulative counter equals the total
minutes emitted on that date so far, and never exceeds the cap. -/
def CapInv (p : Prefs) (st : AllocSt) (ss : List Session) : Prop :=
  ∀ e, st.alloc e = sessMinutes (ss.filter (fun s => s.date = e)) ∧
    st.alloc e ≤ p.cap

/-- Session-length bounds for one task's sessions so far: every chunk is
positive and within the difficulty maximum, every non-final chunk meets
the difficulty minimum, and if minutes remain then every chunk so far met
the minimum (no final short remainder has been emitted yet). -/
def BoundsOk (dif : Difficulty) (ss : List Session) (rem : Nat) : Prop :=
  (∀ s ∈ ss, 0 < s.dur ∧ s.dur ≤ maxSession dif) ∧
  (∀ s ∈ ss.dropLast, minSession dif ≤ s.dur) ∧
  (rem ≠ 0 → ∀ s ∈ ss, minSession dif ≤ s.dur)

theorem sessMinutes_append (a b : List Session) :
    sessMinutes (a ++ b) = sessMinutes a + sessMinutes b := by
  simp [sessMinutes]

theorem dropLast_append_ne {α : Type} (a : List α) {b : List α}
    (hb : b ≠ []) : (a ++ b).dropLast = a ++ b.dropLast := by
  induction a with
  | nil => simp
  | cons x xs ih =>
    have hne : xs ++ b ≠ [] := by
      intro h
      rcases List.append_eq_nil.mp h with ⟨-, h2⟩
      exact hb h2
    rw [List.cons_append, List.dropLast_cons_of_ne_nil hne, ih,
      List.cons_append]

theorem boundsOk_append {dif : Difficulty} {a b : List Session}
    {r1 r2 : Nat} (ha : BoundsOk dif a r1) (hb : BoundsOk dif b r2)
    (hne : b ≠ [] → r1 ≠ 0) (hle : r2 ≤ r1) : BoundsOk dif (a ++ b) r2 := by
  obtain ⟨ha1, ha2, ha3⟩ := ha
  obtain ⟨hb1, hb2, hb3⟩ := hb
  refine ⟨?_, ?_, ?_⟩
  · intro s hs
    rcases List.mem_append.mp hs with hs | hs
    · exact ha1 s hs
    · exact hb1 s hs
  · rcases hbe : b with _ | ⟨x, xs⟩
    · subst hbe
      intro s hs
      rw [List.append_nil] at hs
      exact ha2 s hs
    · intro s hs
      rw [← hbe] at hs
      rw [dropLast_append_ne a (by rw [hbe]; exact List.noConfusion)] at hs
      rcases List.mem_append.mp hs with hs | hs
      · exact ha3 (hne (by rw [hbe]; exact List.noConfusion)) s hs
      · exact hb2 s hs
  · intro hr s hs
    rcases List.mem_append.mp hs with hs | hs
    · exact ha3 (by omega) s hs
    · exact hb3 hr s hs

theorem mem_datesUpTo {a b d : Nat} : d ∈ datesUpTo a b ↔ a ≤ d ∧ d ≤ b := by
  simp only [datesUpTo, List.mem_map, List.mem_range]
  constructor
  · rintro ⟨i, hi, rfl⟩
    omega
  · intro h
    exact ⟨d - a, by omega, by omega⟩

theorem dayFree_pairwise (inp : Input)
    (hcoms : ∀ c ∈ inp.commitments, c.start < c.stop) (d : Nat) :
    (dayFree inp d).Pairwise IvD := by
  unfold dayFree
  apply List.Pairwise.filter
  have hsub : ∀ c ∈ inp.commitments.filter (fun c => d % 7 ∈ c.days),
      c.start < c.stop := by
    intro c hc
    exact hcoms c (List.mem_of_mem_filter hc)
  generalize inp.commitments.filter (fun c => d % 7 ∈ c.days) = cs at hsub
  have hbase : ([⟨if d = inp.nowDate then max inp.prefs.wake inp.nowMin
      else inp.prefs.wake, inp.prefs.sleep⟩] : List Ival).Pairwise IvD := by
    simp
  generalize ([⟨if d = inp.nowDate then max inp.prefs.wake inp.nowMin
      else inp.prefs.wake, inp.prefs.sleep⟩] : List Ival) = base at hbase
  induction cs generalizing base with
  | nil => simpa using hbase
  | cons c cs ih =>
    rw [List.foldl_cons]
    refine ih (fun x hx => hsub x (List.mem_cons_of_mem _ hx)) _ ?_
    exact subIvals_pairwise hbase (hsub c (List.mem_cons_self _ _))

theorem allocDate_main (t : ITask) (p : Prefs) (d rem : Nat) (st : AllocSt)
    (ss : List Session) (hst : StInv st ss) (hcap : CapInv p st ss) :
    StInv (allocDate t p d rem st).1 (ss ++ (allocDate t p d rem st).2.1) ∧
    CapInv p (allocDate t p d rem st).1
      (ss ++ (allocDate t p d rem st).2.1) ∧
    (∀ s ∈ (allocDate t p d rem st).2.1,
       s.tid = t.1 ∧ s.dif = t.2.dif ∧ s.date = d ∧
       (d = t.2.dueDate → s.hi ≤ t.2.dueMin)) := by
  by_cases hfull : p.cap ≤ st.alloc d
  · have hres : allocDate t p d rem st = (st, [], rem) := by
      simp [allocDate, hfull]
    rw [hres]
    simpa using ⟨hst, hcap⟩
  · set limit : Option Nat :=
      if d = t.2.dueDate then some t.2.dueMin else none with hlimdef
    set R := allocIvals t.1 t.2.dif d limit rem (p.cap - st.alloc d)
      (st.avail d) with hRdef
    have hres : allocDate t p d rem st =
        (⟨fun e => if e = d then R.ivals else st.avail e,
          fun e => if e = d then st.alloc d + sessMinutes R.sess
                   else st.alloc e⟩, R.sess, R.remaining) := by
      simp only [allocDate, if_neg hfull]
    rw [hres]
    obtain ⟨hA, hB, hC, hD, hE, hF⟩ :=
      allocIvals_disj t.1 t.2.dif d limit rem (p.cap - st.alloc d)
        (st.avail d) (hst.1 d)
    obtain ⟨hacc1, hacc2, hdb, -, -⟩ :=
      allocIvals_acc t.1 t.2.dif d limit rem (p.cap - st.alloc d)
        (st.avail d)
    rw [← hRdef] at hA hB hC hD hE hF hacc1 hacc2 hdb
    obtain ⟨hi1, hi2, hi3, hi4⟩ := hst
    refine ⟨⟨?_, ?_, ?_, ?_⟩, ?_, ?_⟩
    · intro e
      by_cases he : e = d
      · simpa [he] using hD
      · simpa [he] using hi1 e
    · intro s hs
      rcases List.mem_append.mp hs with hs | hs
      · exact hi2 s hs
      · obtain ⟨hpos, -, -⟩ := hdb s hs
        simp only [Session.dur] at hpos
        omega
    · intro s hs iv hiv n h1 h2 h3
      rcases List.mem_append.mp hs with hs | hs
      · by_cases he : s.date = d
        · simp only [he, if_pos rfl] at hiv
          obtain ⟨j, hj, hjn⟩ := hB iv hiv n h3
          exact hi3 s hs j (by rwa [he]) n h1 h2 hjn
        · simp only [if_neg he] at hiv
          exact hi3 s hs iv hiv n h1 h2 h3
      · obtain ⟨-, -, hdate⟩ := hA s hs
        simp only [hdate, if_pos rfl] at hiv
        exact hE s hs iv hiv n h1 h2 h3
    · rw [List.pairwise_append]
      refine ⟨hi4, ?_, ?_⟩
      · refine List.Pairwise.imp ?_ hF
        intro s1 s2 h12 _
        exact h12
      · intro s1 hs1 s2 hs2
        intro hdate
        obtain ⟨-, -, hd2⟩ := hA s2 hs2
        by_contra hno
        unfold arithD at hno
        push_neg at hno
        obtain ⟨hn1, hn2⟩ := hno
        have hs1ne := hi2 s1 hs1
        obtain ⟨hpos, -, -⟩ := hdb s2 hs2
        have hs2ne : s2.lo < s2.hi := by
          simp only [Session.dur] at hpos
          omega
        set n := max s1.lo s2.lo with hn
        have hin1 : s1.lo ≤ n ∧ n < s1.hi :=
          ⟨le_max_left _ _, by have := max_lt hs1ne hn1; omega⟩
        have hin2 : s2.lo ≤ n ∧ n < s2.hi :=
          ⟨le_max_right _ _, by have := max_lt hn2 hs2ne; omega⟩
        obtain ⟨j, hj, hjn⟩ := hC s2 hs2 n hin2.1 hin2.2
        have hj2 : j ∈ st.avail s1.date := by
          rw [hdate, hd2]
          exact hj
        exact hi3 s1 hs1 j hj2 n hin1.1 hin1.2 hjn
    · intro e
      dsimp only
      by_cases he : e = d
      · have hfilt : R.sess.filter (fun s => s.date = e) = R.sess := by
          rw [List.filter_eq_self]
          intro s hs
          obtain ⟨-, -, hdate⟩ := hA s hs
          simp [hdate, he]
        rw [List.filter_append, hfilt, sessMinutes_append, if_pos he, he]
        have key1 := (hcap d).1
        have key2 := (hcap d).2
        constructor
        · omega
        · omega
      · have hfilt : R.sess.filter (fun s => s.date = e) = [] := by
          rw [List.filter_eq_nil_iff]
          intro s hs
          obtain ⟨-, -, hdate⟩ := hA s hs
          simp only [hdate, decide_eq_true_eq]
          omega
        rw [List.filter_append, hfilt, List.append_nil]
        obtain ⟨h1, h2⟩ := hcap e
        simp only [if_neg he]
        exact ⟨h1, h2⟩
    · intro s hs
      obtain ⟨h1, h2, h3⟩ := hA s hs
      refine ⟨h1, h2, h3, ?_⟩
      intro hdd
      obtain ⟨-, -, hlim⟩ := hdb s hs
      apply hlim
      rw [hlimdef, if_pos hdd]

theorem allocDate_bounds (t : ITask) (p : Prefs) (d rem : Nat)
    (st : AllocSt) :
    BoundsOk t.2.dif (allocDate t p d rem st).2.1
      (allocDate t p d rem st).2.2 ∧
    (allocDate t p d rem st).2.2 +
      sessMinutes (allocDate t p d rem st).2.1 = rem ∧
    (rem = 0 → (allocDate t p d rem st).2.1 = []) := by
  by_cases hfull : p.cap ≤ st.alloc d
  · have hres : allocDate t p d rem st = (st, [], rem) := by
      simp [allocDate, hfull]
    rw [hres]
    refine ⟨⟨by simp, by simp, by simp⟩, by simp [sessMinutes], fun _ => rfl⟩
  · set limit : Option Nat :=
      if d = t.2.dueDate then some t.2.dueMin else none with hlimdef
    set R := allocIvals t.1 t.2.dif d limit rem (p.cap - st.alloc d)
      (st.avail d) with hRdef
    have hres : allocDate t p d rem st =
        (⟨fun e => if e = d then R.ivals else st.avail e,
          fun e => if e = d then st.alloc d + sessMinutes R.sess
                   else st.alloc e⟩, R.sess, R.remaining) := by
      simp only [allocDate, if_neg hfull]
    rw [hres]
    obtain ⟨hacc1, hacc2, hdb, hdl, hrm⟩ :=
      allocIvals_acc t.1 t.2.dif d limit rem (p.cap - st.alloc d)
        (st.avail d)
    rw [← hRdef] at hacc1 hacc2 hdb hdl hrm
    refine ⟨⟨?_, hdl, hrm⟩, hacc1, ?_⟩
    · intro s hs
      obtain ⟨h1, h2, -⟩ := hdb s hs
      exact ⟨h1, h2⟩
    · intro h0
      subst h0
      rw [hRdef]
      exact allocIvals_rem_zero _ _ _ _ _ _

theorem allocDates_main (t : ITask) (p : Prefs) :
    ∀ (ds : List Nat) (rem : Nat) (st : AllocSt) (ss : List Session),
    StInv st ss → CapInv p st ss →
    StInv (allocDates t p ds rem st).1
      (ss ++ (allocDates t p ds rem st).2.1) ∧
    CapInv p (allocDates t p ds rem st).1
      (ss ++ (allocDates t p ds rem st).2.1) ∧
    (∀ s ∈ (allocDates t p ds rem st).2.1,
       s.tid = t.1 ∧ s.dif = t.2.dif ∧ s.date ∈ ds ∧
       (s.date = t.2.dueDate → s.hi ≤ t.2.dueMin)) ∧
    BoundsOk t.2.dif (allocDates t p ds rem st).2.1
      (allocDates t p ds rem st).2.2 ∧
    (allocDates t p ds rem st).2.2 +
      sessMinutes (allocDates t p ds rem st).2.1 = rem ∧
    (rem = 0 → (allocDates t p ds rem st).2.1 = []) := by
  intro ds
  induction ds with
  | nil =>
    intro rem st ss hst hcap
    have hres : allocDates t p [] rem st = (st, [], rem) := rfl
    rw [hres]
    refine ⟨by simpa using hst, by simpa using hcap, by simp,
      ⟨by simp, by simp, by simp⟩, by simp [sessMinutes], fun _ => rfl⟩
  | cons d ds ih =>
    intro rem st ss hst hcap
    by_cases h0 : rem = 0
    · have hres : allocDates t p (d :: ds) rem st = (st, [], rem) := by
        simp [allocDates, h0]
      rw [hres]
      refine ⟨by simpa using hst, by simpa using hcap, by simp,
        ⟨by simp, by simp, by simp⟩, by simp [sessMinutes], fun _ => rfl⟩
    · have hres : allocDates t p (d :: ds) rem st =
          ((allocDates t p ds (allocDate t p d rem st).2.2
             (allocDate t p d rem st).1).1,
           (allocDate t p d rem st).2.1 ++
             (allocDates t p ds (allocDate t p d rem st).2.2
               (allocDate t p d rem st).1).2.1,
           (allocDates t p ds (allocDate t p d rem st).2.2
             (allocDate t p d rem st).1).2.2) := by
        simp only [allocDates, if_neg h0]
      rw [hres]
      dsimp only
      obtain ⟨hstA, hcapA, hfactsA⟩ := allocDate_main t p d rem st ss hst hcap
      obtain ⟨hbA, haccA, hzA⟩ := allocDate_bounds t p d rem st
      obtain ⟨hstB, hcapB, hfactsB, hbB, haccB, hzB⟩ :=
        ih (allocDate t p d rem st).2.2 (allocDate t p d rem st).1
          (ss ++ (allocDate t p d rem st).2.1) hstA hcapA
      refine ⟨?_, ?_, ?_, ?_, ?_, ?_⟩
      · rw [← List.append_assoc]
        exact hstB
      · rw [← List.append_assoc]
        exact hcapB
      · intro s hs
        rcases List.mem_append.mp hs with hs | hs
        · obtain ⟨h1, h2, h3, h4⟩ := hfactsA s hs
          refine ⟨h1, h2, by rw [h3]; exact List.mem_cons_self _ _, ?_⟩
          intro hdd
          exact h4 (by omega)
        · obtain ⟨h1, h2, h3, h4⟩ := hfactsB s hs
          exact ⟨h1, h2, List.mem_cons_of_mem _ h3, h4⟩
      · refine boundsOk_append hbA hbB ?_ ?_
        · intro hne
          intro hz
          exact hne (hzB hz)
        · omega
      · rw [sessMinutes_append]
        omega
      · intro h
        exact absurd h h0

theorem allocTask_main (nowDate : Nat) (p : Prefs) (t : ITask)
    (st : AllocSt) (ss : List Session) (hst : StInv st ss)
    (hcap : CapInv p st ss) :
    StInv (allocTask nowDate p t st).1
      (ss ++ (allocTask nowDate p t st).2.1) ∧
    CapInv p (allocTask nowDate p t st).1
      (ss ++ (allocTask nowDate p t st).2.1) ∧
    (∀ s ∈ (allocTask nowDate p t st).2.1,
       s.tid = t.1 ∧ s.dif = t.2.dif ∧ nowDate ≤ s.date ∧
       s.date ≤ t.2.dueDate ∧
       (s.date = t.2.dueDate → s.hi ≤ t.2.dueMin)) ∧
    BoundsOk t.2.dif (allocTask nowDate p t st).2.1
      (allocTask nowDate p t st).2.2 ∧
    (allocTask nowDate p t st).2.2 +
      sessMinutes (allocTask nowDate p t st).2.1 = t.2.duration := by
  obtain ⟨h1, h2, h3, h4, h5, -⟩ :=
    allocDates_main t p (datesUpTo nowDate t.2.dueDate) t.2.duration st ss
      hst hcap
  refine ⟨h1, h2, ?_, h4, h5⟩
  intro s hs
  obtain ⟨ha, hb, hc, hd⟩ := h3 s hs
  obtain ⟨hc1, hc2⟩ := mem_datesUpTo.mp hc
  exact ⟨ha, hb, hc1, hc2, hd⟩

/-- Per-outcome facts established by the allocator: session identity,
dates within the task's candidate range, the deadline and size bounds,
the status rule and the conservation of minutes. -/
def OutOk (nowDate : Nat) (o : Outcome) : Prop :=
  (∀ s ∈ o.sessions,
     s.tid = o.tid ∧ s.dif = o.task.dif ∧ nowDate ≤ s.date ∧
     s.date ≤ o.task.dueDate ∧
     (s.date = o.task.dueDate → s.hi ≤ o.task.dueMin) ∧
     0 < s.dur ∧ s.dur ≤ maxSession o.task.dif) ∧
  (∀ s ∈ o.sessions.dropLast, minSession o.task.dif ≤ s.dur) ∧
  o.status = (if o.remaining = 0 then Status.scheduled
              else Status.incomplete) ∧
  o.remaining + sessMinutes o.sessions = o.task.duration

theorem runTasks_main (nowDate : Nat) (p : Prefs) :
    ∀ (ts : List ITask) (st : AllocSt) (ss : List Session),
    StInv st ss → CapInv p st ss →
    StInv (runTasks nowDate p ts st).1
      (ss ++ sessionsOf (runTasks nowDate p ts st).2) ∧
    CapInv p (runTasks nowDate p ts st).1
      (ss ++ sessionsOf (runTasks nowDate p ts st).2) ∧
    (∀ o ∈ (runTasks nowDate p ts st).2, OutOk nowDate o) ∧
    (runTasks nowDate p ts st).2.map (fun o => (o.tid, o.task)) = ts := by
  intro ts
  induction ts with
  | nil =>
    intro st ss hst hcap
    have hres : runTasks nowDate p [] st = (st, []) := rfl
    rw [hres]
    exact ⟨by simpa [sessionsOf] using hst,
      by simpa [sessionsOf] using hcap, by simp, by simp⟩
  | cons t ts ih =>
    intro st ss hst hcap
    have hres : runTasks nowDate p (t :: ts) st =
        ((runTasks nowDate p ts (allocTask nowDate p t st).1).1,
         ⟨t.1, t.2, (allocTask nowDate p t st).2.1,
          (allocTask nowDate p t st).2.2,
          if (allocTask nowDate p t st).2.2 = 0 then .scheduled
          else .incomplete⟩ ::
           (runTasks nowDate p ts (allocTask nowDate p t st).1).2) := by
      simp only [runTasks]
    rw [hres]
    obtain ⟨hstA, hcapA, hfactsA, hbA, haccA⟩ :=
      allocTask_main nowDate p t st ss hst hcap
    obtain ⟨hstB, hcapB, houtB, hmapB⟩ :=
      ih (allocTask nowDate p t st).1 (ss ++ (allocTask nowDate p t st).2.1)
        hstA hcapA
    have hflat : sessionsOf
        (Outcome.mk t.1 t.2 (allocTask nowDate p t st).2.1
          (allocTask nowDate p t st).2.2
          (if (allocTask nowDate p t st).2.2 = 0 then .scheduled
           else .incomplete) ::
          (runTasks nowDate p ts (allocTask nowDate p t st).1).2) =
        (allocTask nowDate p t st).2.1 ++
          sessionsOf (runTasks nowDate p ts (allocTask nowDate p t st).1).2
        := by
      simp [sessionsOf]
    refine ⟨?_, ?_, ?_, ?_⟩
    · rw [hflat, ← List.append_assoc]
      exact hstB
    · rw [hflat, ← List.append_assoc]
      exact hcapB
    · intro o ho
      rcases List.mem_cons.mp ho with rfl | ho
      · refine ⟨?_, ?_, rfl, haccA⟩
        · intro s hs
          obtain ⟨h1, h2, h3, h4, h5⟩ := hfactsA s hs
          obtain ⟨hb1, -, -⟩ := hbA
          obtain ⟨hd1, hd2⟩ := hb1 s hs
          exact ⟨h1, h2, h3, h4, h5, hd1, hd2⟩
        · exact hbA.2.1
      · exact houtB o ho
    · simp only [List.map_cons, hmapB]

theorem insertSess_perm (x : Session) (l : List Session) :
    (insertSess x l).Perm (x :: l) := by
  induction l with
  | nil => exact List.Perm.refl _
  | cons y ys ih =>
    by_cases h : sessLt y x
    · rw [insertSess, if_pos h]
      exact (ih.cons y).trans (List.Perm.swap x y ys)
    · rw [insertSess, if_neg h]

theorem sortSessions_perm (l : List Session) :
    (sortSessions l).Perm l := by
  induction l with
  | nil => exact List.Perm.refl _
  | cons x xs ih =>
    have hstep : sortSessions (x :: xs) = insertSess x (sortSessions xs) :=
      rfl
    rw [hstep]
    exact (insertSess_perm x (sortSessions xs)).trans (ih.cons x)

theorem insertRanked_perm (now : Nat) (x : ITask) (l : List ITask) :
    (insertRanked now x l).Perm (x :: l) := by
  induction l with
  | nil => exact List.Perm.refl _
  | cons y ys ih =>
    by_cases h : rankLt now y.2 x.2
    · rw [insertRanked, if_pos h]
      exact (ih.cons y).trans (List.Perm.swap x y ys)
    · rw [insertRanked, if_neg h]

theorem rankTasks_perm (now : Nat) (ts : List ITask) :
    (rankTasks now ts).Perm ts := by
  induction ts with
  | nil => exact List.Perm.refl _
  | cons x xs ih =>
    have hstep : rankTasks now (x :: xs) =
        insertRanked now x (rankTasks now xs) := rfl
    rw [hstep]
    exact (insertRanked_perm now x (rankTasks now xs)).trans (ih.cons x)

theorem rankLt_asymm {now : Nat} {t u : Task} (h : rankLt now t u) :
    ¬ rankLt now u t := by
  unfold rankLt at *
  omega

theorem rankLe_trans {now : Nat} {a b c : Task}
    (h1 : ¬ rankLt now b a) (h2 : ¬ rankLt now c b) : ¬ rankLt now c a := by
  unfold rankLt at *
  omega

theorem insertRanked_pairwise (now : Nat) (x : ITask) (l : List ITask)
    (hl : l.Pairwise (fun a b => ¬ rankLt now b.2 a.2)) :
    (insertRanked now x l).Pairwise (fun a b => ¬ rankLt now b.2 a.2) := by
  induction l with
  | nil => simp [insertRanked]
  | cons y ys ih =>
    rcases List.pairwise_cons.mp hl with ⟨hhead, htail⟩
    by_cases h : rankLt now y.2 x.2
    · rw [insertRanked, if_pos h]
      refine List.pairwise_cons.mpr ⟨?_, ih htail⟩
      intro z hz
      have hz2 := (insertRanked_perm now x ys).mem_iff.mp hz
      rcases List.mem_cons.mp hz2 with rfl | hz3
      · exact rankLt_asymm h
      · exact hhead z hz3
    · rw [insertRanked, if_neg h]
      refine List.pairwise_cons.mpr ⟨?_, hl⟩
      intro z hz
      rcases List.mem_cons.mp hz with rfl | hz2
      · exact h
      · exact rankLe_trans h (hhead z hz2)

theorem rankTasks_pairwise (now : Nat) (ts : List ITask) :
    (rankTasks now ts).Pairwise (fun a b => ¬ rankLt now b.2 a.2) := by
  induction ts with
  | nil => simp [rankTasks]
  | cons x xs ih => exact insertRanked_pairwise now x (rankTasks now xs) ih

/-- The full sort key of a task: scaled score then absolute deadline. -/
def keyOf (now : Nat) (t : Task) : Int × Nat := (scaledScore now t, dueAbs t)

theorem rankLt_key_ne {now : Nat} {t u : Task} (h : rankLt now t u) :
    keyOf now t ≠ keyOf now u := by
  unfold rankLt at h
  unfold keyOf
  intro he
  rw [Prod.mk.injEq] at he
  omega

theorem insertRanked_filter (now : Nat) (x : ITask) (l : List ITask)
    (k : Int × Nat) :
    (insertRanked now x l).filter (fun y => keyOf now y.2 = k) =
      if keyOf now x.2 = k then
        x :: l.filter (fun y => keyOf now y.2 = k)
      else l.filter (fun y => keyOf now y.2 = k) := by
  induction l with
  | nil =>
    by_cases hk : keyOf now x.2 = k
    · simp [insertRanked, hk]
    · simp [insertRanked, hk]
  | cons y ys ih =>
    by_cases h : rankLt now y.2 x.2
    · rw [insertRanked, if_pos h]
      by_cases hk : keyOf now x.2 = k
      · have hyk : ¬ (keyOf now y.2 = k) := by
          intro hy
          exact rankLt_key_ne h (hy.trans hk.symm)
        rw [List.filter_cons, List.filter_cons]
        simp [hyk, ih, hk]
      · rw [List.filter_cons, List.filter_cons]
        by_cases hyk : keyOf now y.2 = k
        · simp [hyk, ih, hk]
        · simp [hyk, ih, hk]
    · rw [insertRanked, if_neg h]
      by_cases hk : keyOf now x.2 = k
      · rw [List.filter_cons]
        simp [hk]
      · rw [List.filter_cons]
        simp [hk]

theorem rankTasks_filter (now : Nat) (ts : List ITask) (k : Int × Nat) :
    (rankTasks now ts).filter (fun y => keyOf now y.2 = k) =
      ts.filter (fun y => keyOf now y.2 = k) := by
  induction ts with
  | nil => rfl
  | cons x xs ih =>
    have hstep : rankTasks now (x :: xs) =
        insertRanked now x (rankTasks now xs) := rfl
    rw [hstep, insertRanked_filter, ih, List.filter_cons]
    by_cases hk : keyOf now x.2 = k
    · simp [hk]
    · simp [hk]

theorem scoreQ_eq_scaled (now : Nat) (t : Task) :
    scoreQ now t = (scaledScore now t : ℚ) / 216000 := by
  unfold scoreQ scaledScore weightQ scoreScale
  cases t.dif <;> push_cast <;> ring

theorem div216000_lt {a b : Int} :
    (a : ℚ) / 216000 < (b : ℚ) / 216000 ↔ a < b := by
  rw [div_lt_div_iff (by norm_num) (by norm_num)]
  rw [mul_lt_mul_right (by norm_num : (0 : ℚ) < 216000)]
  exact Int.cast_lt

theorem div216000_eq {a b : Int} :
    (a : ℚ) / 216000 = (b : ℚ) / 216000 ↔ a = b := by
  constructor
  · intro h
    have h2 : (a : ℚ) = (b : ℚ) := by
      field_simp at h
      exact_mod_cast h
    exact_mod_cast h2
  · intro h
    rw [h]

theorem sessionsOf_mem {outs : List Outcome} {s : Session} :
    s ∈ sessionsOf outs ↔ ∃ o ∈ outs, s ∈ o.sessions := by
  induction outs with
  | nil => simp [sessionsOf]
  | cons o os ih =>
    have hstep : sessionsOf (o :: os) = o.sessions ++ sessionsOf os := rfl
    rw [hstep]
    simp only [List.mem_append, ih, List.mem_cons]
    constructor
    · rintro (h | ⟨p, hp, hps⟩)
      · exact ⟨o, Or.inl rfl, h⟩
      · exact ⟨p, Or.inr hp, hps⟩
    · rintro ⟨p, rfl | hp, hps⟩
      · exact Or.inl hps
      · exact Or.inr ⟨p, hp, hps⟩

theorem indexTasks_filter_length (pp : Task → Bool) :
    ∀ (i : Nat) (ts : List Task),
    ((indexTasks i ts).filter (fun x => pp x.2)).length =
      (ts.filter pp).length := by
  intro i ts
  induction ts generalizing i with
  | nil => rfl
  | cons t ts ih =>
    rw [indexTasks, List.filter_cons, List.filter_cons]
    by_cases hp : pp t
    · simp [hp, ih]
    · simp [hp, ih]

theorem allocIvals_fields (tid : Nat) (dif : Difficulty) (d : Nat)
    (limit : Option Nat) :
    ∀ (rem cr : Nat) (ivs : List Ival),
    ∀ s ∈ (allocIvals tid dif d limit rem cr ivs).sess,
      s.tid = tid ∧ s.dif = dif ∧ s.date = d := by
  intro rem cr ivs
  induction ivs generalizing rem cr with
  | nil => simp [allocIvals]
  | cons iv ivs ih =>
    by_cases h0 : rem = 0
    · subst h0
      simp [allocIvals]
    · by_cases hskip : chunkSize dif limit rem cr iv = 0 ∨
        (chunkSize dif limit rem cr iv < minSession dif ∧
         chunkSize dif limit rem cr iv < rem)
      · have hres : allocIvals tid dif d limit rem cr (iv :: ivs) =
            ⟨iv :: (allocIvals tid dif d limit rem cr ivs).ivals,
             (allocIvals tid dif d limit rem cr ivs).sess,
             (allocIvals tid dif d limit rem cr ivs).remaining,
             (allocIvals tid dif d limit rem cr ivs).capRem⟩ := by
          simp only [allocIvals, if_neg h0, if_pos hskip]
        rw [hres]
        exact ih rem cr
      · set c := chunkSize dif limit rem cr iv with hc
        have hres : allocIvals tid dif d limit rem cr (iv :: ivs) =
            ⟨Ival.minus iv ⟨iv.lo, iv.lo + c⟩ ++
               (allocIvals tid dif d limit (rem - c) (cr - c) ivs).ivals,
             ⟨tid, dif, d, iv.lo, iv.lo + c⟩ ::
               (allocIvals tid dif d limit (rem - c) (cr - c) ivs).sess,
             (allocIvals tid dif d limit (rem - c) (cr - c) ivs).remaining,
             (allocIvals tid dif d limit (rem - c) (cr - c) ivs).capRem⟩ := by
          simp only [allocIvals, if_neg h0, if_neg hskip]
        rw [hres]
        intro s hs
        rcases List.mem_cons.mp hs with rfl | hs
        · exact ⟨rfl, rfl, rfl⟩
        · exact ih (rem - c) (cr - c) s hs

theorem allocDate_weak (t : ITask) (p : Prefs) (d rem : Nat) (st : AllocSt)
    (ss : List Session) (hcap : CapInv p st ss) :
    CapInv p (allocDate t p d rem st).1
      (ss ++ (allocDate t p d rem st).2.1) ∧
    (∀ s ∈ (allocDate t p d rem st).2.1,
       s.tid = t.1 ∧ s.dif = t.2.dif ∧ s.date = d ∧
       (d = t.2.dueDate → s.hi ≤ t.2.dueMin)) := by
  by_cases hfull : p.cap ≤ st.alloc d
  · have hres : allocDate t p d rem st = (st, [], rem) := by
      simp [allocDate, hfull]
    rw [hres]
    simpa using hcap
  · set limit : Option Nat :=
      if d = t.2.dueDate then some t.2.dueMin else none with hlimdef
    set R := allocIvals t.1 t.2.dif d limit rem (p.cap - st.alloc d)
      (st.avail d) with hRdef
    have hres : allocDate t p d rem st =
        (⟨fun e => if e = d then R.ivals else st.avail e,
          fun e => if e = d then st.alloc d + sessMinutes R.sess
                   else st.alloc e⟩, R.sess, R.remaining) := by
      simp only [allocDate, if_neg hfull]
    rw [hres]
    have hA := allocIvals_fields t.1 t.2.dif d limit rem
      (p.cap - st.alloc d) (st.avail d)
    obtain ⟨-, hacc2, hdb, -, -⟩ :=
      allocIvals_acc t.1 t.2.dif d limit rem (p.cap - st.alloc d)
        (st.avail d)
    rw [← hRdef] at hA hacc2 hdb
    constructor
    · intro e
      dsimp only
      by_cases he : e = d
      · have hfilt : R.sess.filter (fun s => s.date = e) = R.sess := by
          rw [List.filter_eq_self]
          intro s hs
          obtain ⟨-, -, hdate⟩ := hA s hs
          simp [hdate, he]
        rw [List.filter_append, hfilt, sessMinutes_append, if_pos he, he]
        have key1 := (hcap d).1
        have key2 := (hcap d).2
        constructor
        · omega
        · omega
      · have hfilt : R.sess.filter (fun s => s.date = e) = [] := by
          rw [List.filter_eq_nil_iff]
          intro s hs
          obtain ⟨-, -, hdate⟩ := hA s hs
          simp only [hdate, decide_eq_true_eq]
          omega
        rw [List.filter_append, hfilt, List.append_nil]
        obtain ⟨h1, h2⟩ := hcap e
        simp only [if_neg he]
        exact ⟨h1, h2⟩
    · intro s hs
      obtain ⟨h1, h2, h3⟩ := hA s hs
      refine ⟨h1, h2, h3, ?_⟩
      intro hdd
      obtain ⟨-, -, hlim⟩ := hdb s hs
      apply hlim
      rw [hlimdef, if_pos hdd]

theorem allocDates_weak (t : ITask) (p : Prefs) :
    ∀ (ds : List Nat) (rem : Nat) (st : AllocSt) (ss : List Session),
    CapInv p st ss →
    CapInv p (allocDates t p ds rem st).1
      (ss ++ (allocDates t p ds rem st).2.1) ∧
    (∀ s ∈ (allocDates t p ds rem st).2.1,
       s.tid = t.1 ∧ s.dif = t.2.dif ∧ s.date ∈ ds ∧
       (s.date = t.2.dueDate → s.hi ≤ t.2.dueMin)) ∧
    BoundsOk t.2.dif (allocDates t p ds rem st).2.1
      (allocDates t p ds rem st).2.2 ∧
    (allocDates t p ds rem st).2.2 +
      sessMinutes (allocDates t p ds rem st).2.1 = rem ∧
    (rem = 0 → (allocDates t p ds rem st).2.1 = []) := by
  intro ds
  induction ds with
  | nil =>
    intro rem st ss hcap
    have hres : allocDates t p [] rem st = (st, [], rem) := rfl
    rw [hres]
    refine ⟨by simpa using hcap, by simp,
      ⟨by simp, by simp, by simp⟩, by simp [sessMinutes], fun _ => rfl⟩
  | cons d ds ih =>
    intro rem st ss hcap
    by_cases h0 : rem = 0
    · have hres : allocDates t p (d :: ds) rem st = (st, [], rem) := by
        simp [allocDates, h0]
      rw [hres]
      refine ⟨by simpa using hcap, by simp,
        ⟨by simp, by simp, by simp⟩, by simp [sessMinutes], fun _ => rfl⟩
    · have hres : allocDates t p (d :: ds) rem st =
          ((allocDates t p ds (allocDate t p d rem st).2.2
             (allocDate t p d rem st).1).1,
           (allocDate t p d rem st).2.1 ++
             (allocDates t p ds (allocDate t p d rem st).2.2
               (allocDate t p d rem st).1).2.1,
           (allocDates t p ds (allocDate t p d rem st).2.2
             (allocDate t p d rem st).1).2.2) := by
        simp only [allocDates, if_neg h0]
      rw [hres]
      dsimp only
      obtain ⟨hcapA, hfactsA⟩ := allocDate_weak t p d rem st ss hcap
      obtain ⟨hbA, haccA, hzA⟩ := allocDate_bounds t p d rem st
      obtain ⟨hcapB, hfactsB, hbB, haccB, hzB⟩ :=
        ih (allocDate t p d rem st).2.2 (allocDate t p d rem st).1
          (ss ++ (allocDate t p d rem st).2.1) hcapA
      refine ⟨?_, ?_, ?_, ?_, ?_⟩
      · rw [← List.append_assoc]
        exact hcapB
      · intro s hs
        rcases List.mem_append.mp hs with hs | hs
        · obtain ⟨h1, h2, h3, h4⟩ := hfactsA s hs
          refine ⟨h1, h2, by rw [h3]; exact List.mem_cons_self _ _, ?_⟩
          intro hdd
          exact h4 (by omega)
        · obtain ⟨h1, h2, h3, h4⟩ := hfactsB s hs
          exact ⟨h1, h2, List.mem_cons_of_mem _ h3, h4⟩
      · refine boundsOk_append hbA hbB ?_ ?_
        · intro hne hz
          exact hne (hzB hz)
        · omega
      · rw [sessMinutes_append]
        omega
      · intro h
        exact absurd h h0

theorem allocTask_weak (nowDate : Nat) (p : Prefs) (t : ITask)
    (st : AllocSt) (ss : List Session) (hcap : CapInv p st ss) :
    CapInv p (allocTask nowDate p t st).1
      (ss ++ (allocTask nowDate p t st).2.1) ∧
    (∀ s ∈ (allocTask nowDate p t st).2.1,
       s.tid = t.1 ∧ s.dif = t.2.dif ∧ nowDate ≤ s.date ∧
       s.date ≤ t.2.dueDate ∧
       (s.date = t.2.dueDate → s.hi ≤ t.2.dueMin)) ∧
    BoundsOk t.2.dif (allocTask nowDate p t st).2.1
      (allocTask nowDate p t st).2.2 ∧
    (allocTask nowDate p t st).2.2 +
      sessMinutes (allocTask nowDate p t st).2.1 = t.2.duration := by
  obtain ⟨h1, h2, h3, h4, -⟩ :=
    allocDates_weak t p (datesUpTo nowDate t.2.dueDate) t.2.duration st ss
      hcap
  refine ⟨h1, ?_, h3, h4⟩
  intro s hs
  obtain ⟨ha, hb, hc, hd⟩ := h2 s hs
  obtain ⟨hc1, hc2⟩ := mem_datesUpTo.mp hc
  exact ⟨ha, hb, hc1, hc2, hd⟩

theorem runTasks_weak (nowDate : Nat) (p : Prefs) :
    ∀ (ts : List ITask) (st : AllocSt) (ss : List Session),
    CapInv p st ss →
    CapInv p (runTasks nowDate p ts st).1
      (ss ++ sessionsOf (runTasks nowDate p ts st).2) ∧
    (∀ o ∈ (runTasks nowDate p ts st).2, OutOk nowDate o) ∧
    (runTasks nowDate p ts st).2.map (fun o => (o.tid, o.task)) = ts := by
  intro ts
  induction ts with
  | nil =>
    intro st ss hcap
    have hres : runTasks nowDate p [] st = (st, []) := rfl
    rw [hres]
    exact ⟨by simpa [sessionsOf] using hcap, by simp, by simp⟩
  | cons t ts ih =>
    intro st ss hcap
    have hres : runTasks nowDate p (t :: ts) st =
        ((runTasks nowDate p ts (allocTask nowDate p t st).1).1,
         ⟨t.1, t.2, (allocTask nowDate p t st).2.1,
          (allocTask nowDate p t st).2.2,
          if (allocTask nowDate p t st).2.2 = 0 then .scheduled
          else .incomplete⟩ ::
           (runTasks nowDate p ts (allocTask nowDate p t st).1).2) := by
      simp only [runTasks]
    rw [hres]
    obtain ⟨hcapA, hfactsA, hbA, haccA⟩ :=
      allocTask_weak nowDate p t st ss hcap
    obtain ⟨hcapB, houtB, hmapB⟩ :=
      ih (allocTask nowDate p t st).1 (ss ++ (allocTask nowDate p t st).2.1)
        hcapA
    have hflat : sessionsOf
        (Outcome.mk t.1 t.2 (allocTask nowDate p t st).2.1
          (allocTask nowDate p t st).2.2
          (if (allocTask nowDate p t st).2.2 = 0 then .scheduled
           else .incomplete) ::
          (runTasks nowDate p ts (allocTask nowDate p t st).1).2) =
        (allocTask nowDate p t st).2.1 ++
          sessionsOf (runTasks nowDate p ts (allocTask nowDate p t st).1).2
        := by
      simp [sessionsOf]
    refine ⟨?_, ?_, ?_⟩
    · rw [hflat, ← List.append_assoc]
      exact hcapB
    · intro o ho
      rcases List.mem_cons.mp ho with rfl | ho
      · refine ⟨?_, ?_, rfl, haccA⟩
        · intro s hs
          obtain ⟨h1, h2, h3, h4, h5⟩ := hfactsA s hs
          obtain ⟨hb1, -, -⟩ := hbA
          obtain ⟨hd1, hd2⟩ := hb1 s hs
          exact ⟨h1, h2, h3, h4, h5, hd1, hd2⟩
        · exact hbA.2.1
      · exact houtB o ho
    · simp only [List.map_cons, hmapB]

/-- The indexed pending tasks of a run (deadline at or after now). -/
def pendingOf (inp : Input) : List ITask :=
  (indexTasks 0 inp.tasks).filter (fun t => nowAbs inp ≤ dueAbs t.2)

/-- The indexed tasks already past their deadline at run start. -/
def lateOf (inp : Input) : List ITask :=
  (indexTasks 0 inp.tasks).filter (fun t => dueAbs t.2 < nowAbs inp)

/-- The allocator pass of a run: ranked pending tasks against the fresh
availability state. -/
def runOf (inp : Input) : AllocSt × List Outcome :=
  runTasks inp.nowDate inp.prefs
    (rankTasks (nowAbs inp) (pendingOf inp))
    ⟨fun d => dayFree inp d, fun _ => 0⟩

/-- The outcomes of the overdue tasks: no sessions, status overdue. -/
def lateOutsOf (inp : Input) : List Outcome :=
  (lateOf inp).map (fun t => Outcome.mk t.1 t.2 [] t.2.duration .overdue)

theorem generateSchedule_eq (inp : Input) :
    generateSchedule inp =
      { sessions := sortSessions (sessionsOf (runOf inp).2)
        outcomes := (runOf inp).2 ++ lateOutsOf inp
        total := inp.tasks.length
        nScheduled := countStatus .scheduled ((runOf inp).2 ++ lateOutsOf inp)
        nIncomplete :=
          countStatus .incomplete ((runOf inp).2 ++ lateOutsOf inp)
        nOverdue := countStatus .overdue ((runOf inp).2 ++ lateOutsOf inp) }
    := rfl

theorem capInv_init (inp : Input) :
    CapInv inp.prefs ⟨fun d => dayFree inp d, fun _ => 0⟩ [] := by
  intro e
  simp [sessMinutes]

theorem engine_weak_facts (inp : Input) :
    CapInv inp.prefs (runOf inp).1 (sessionsOf (runOf inp).2) ∧
    (∀ o ∈ (runOf inp).2, OutOk inp.nowDate o) ∧
    (runOf inp).2.map (fun o => (o.tid, o.task)) =
      rankTasks (nowAbs inp) (pendingOf inp) := by
  obtain ⟨h1, h2, h3⟩ := runTasks_weak inp.nowDate inp.prefs
    (rankTasks (nowAbs inp) (pendingOf inp))
    ⟨fun d => dayFree inp d, fun _ => 0⟩ [] (capInv_init inp)
  exact ⟨by simpa using h1, h2, h3⟩

theorem engine_strong_facts (inp : Input)
    (hcoms : ∀ c ∈ inp.commitments, c.start < c.stop) :
    StInv (runOf inp).1 (sessionsOf (runOf inp).2) := by
  have hst0 : StInv ⟨fun d => dayFree inp d, fun _ => 0⟩ [] := by
    refine ⟨?_, by simp, by simp, by simp⟩
    intro e
    exact dayFree_pairwise inp hcoms e
  obtain ⟨h1, -, -, -⟩ := runTasks_main inp.nowDate inp.prefs
    (rankTasks (nowAbs inp) (pendingOf inp))
    ⟨fun d => dayFree inp d, fun _ => 0⟩ [] hst0 (capInv_init inp)
  simpa using h1

/-- C1 -- No-overlap invariant: in every scheduling run over well-formed
commitments (start < end, the FixedCommitment data-model invariant of
spec §3), any two distinct ScheduledSessions emitted on the same calendar
date occupy disjoint time intervals. -/
theorem claim1_no_overlap (inp : Input)
    (hcoms : ∀ c ∈ inp.commitments, c.start < c.stop) :
    (generateSchedule inp).sessions.Pairwise
      (fun s1 s2 => s1.date = s2.date →
        s1.hi ≤ s2.lo ∨ s2.hi ≤ s1.lo) := by
  rw [generateSchedule_eq]
  have hsym : Symmetric (fun s1 s2 : Session =>
      s1.date = s2.date → s1.hi ≤ s2.lo ∨ s2.hi ≤ s1.lo) := by
    intro a b h hd
    rcases h hd.symm with h1 | h1
    · exact Or.inr h1
    · exact Or.inl h1
  have hperm := sortSessions_perm (sessionsOf (runOf inp).2)
  obtain ⟨-, -, -, h4⟩ := engine_strong_facts inp hcoms
  exact (List.Perm.pairwise_iff (fun h => hsym h) hperm).mpr h4

def w1inp : Input :=
  ⟨[⟨[0, 1, 2, 3, 4, 5, 6], 720, 780⟩], [⟨180, 2, 1439, .hard⟩],
   defaultPrefs, 0, 480⟩

theorem claim1_witness :
    (∀ c ∈ w1inp.commitments, c.start < c.stop) ∧
    (generateSchedule w1inp).sessions.Pairwise
      (fun s1 s2 => s1.date = s2.date →
        s1.hi ≤ s2.lo ∨ s2.hi ≤ s1.lo) :=
  ⟨by decide, claim1_no_overlap w1inp (by decide)⟩

/-- C3 -- Session length bounds: every emitted session is positive and at
most the difficulty maximum, and every session other than a task's final
chunk is at least the difficulty minimum. -/
theorem claim3_session_bounds (inp : Input) :
    ∀ o ∈ (generateSchedule inp).outcomes,
      (∀ s ∈ o.sessions,
        0 < s.dur ∧ s.dur ≤ maxSession o.task.dif) ∧
      (∀ s ∈ o.sessions.dropLast, minSession o.task.dif ≤ s.dur) := by
  rw [generateSchedule_eq]
  intro o ho
  rcases List.mem_append.mp ho with ho | ho
  · obtain ⟨-, hout, -⟩ := engine_weak_facts inp
    obtain ⟨h1, h2, -, -⟩ := hout o ho
    refine ⟨?_, h2⟩
    intro s hs
    obtain ⟨-, -, -, -, -, hd1, hd2⟩ := h1 s hs
    exact ⟨hd1, hd2⟩
  · obtain ⟨t, -, rfl⟩ := List.mem_map.mp ho
    exact ⟨by simp, by simp⟩

def w3inp : Input :=
  ⟨[⟨[0, 1, 2, 3, 4, 5, 6], 720, 780⟩], [⟨180, 2, 1439, .hard⟩],
   defaultPrefs, 0, 480⟩

def w3out : Outcome :=
  ⟨0, ⟨180, 2, 1439, .hard⟩,
   [⟨0, .hard, 0, 480, 600⟩, ⟨0, .hard, 0, 780, 840⟩], 0, .scheduled⟩

theorem claim3_witness :
    w3out ∈ (generateSchedule w3inp).outcomes ∧
    ((∀ s ∈ w3out.sessions,
        0 < s.dur ∧ s.dur ≤ maxSession w3out.task.dif) ∧
     (∀ s ∈ w3out.sessions.dropLast, minSession w3out.task.dif ≤ s.dur)) :=
  ⟨by decide, claim3_session_bounds w3inp w3out (by decide)⟩

/-- C4 -- Deadline invariant: no session of a task falls after the task's
due date; a session on the due date ends at or before the due
time-of-day, and in particular starts strictly before the due boundary. -/
theorem claim4_deadline (inp : Input) :
    ∀ o ∈ (generateSchedule inp).outcomes, ∀ s ∈ o.sessions,
      s.date ≤ o.task.dueDate ∧
      (s.date = o.task.dueDate →
        s.hi ≤ o.task.dueMin ∧ s.lo < o.task.dueMin) := by
  rw [generateSchedule_eq]
  intro o ho s hs
  rcases List.mem_append.mp ho with ho | ho
  · obtain ⟨-, hout, -⟩ := engine_weak_facts inp
    obtain ⟨h1, -, -, -⟩ := hout o ho
    obtain ⟨-, -, -, h4, h5, hd1, -⟩ := h1 s hs
    refine ⟨h4, ?_⟩
    intro hdd
    have hend := h5 hdd
    simp only [Session.dur] at hd1
    exact ⟨hend, by omega⟩
  · obtain ⟨t, -, rfl⟩ := List.mem_map.mp ho
    simp at hs

def w4inp : Input :=
  ⟨[], [⟨120, 0, 600, .easy⟩], defaultPrefs, 0, 480⟩

def w4out : Outcome :=
  ⟨0, ⟨120, 0, 600, .easy⟩, [⟨0, .easy, 0, 480, 540⟩], 60, .incomplete⟩

theorem claim4_witness :
    w4out ∈ (generateSchedule w4inp).outcomes ∧
    (⟨0, .easy, 0, 480, 540⟩ : Session) ∈ w4out.sessions ∧
    ((⟨0, .easy, 0, 480, 540⟩ : Session).date ≤ w4out.task.dueDate ∧
     ((⟨0, .easy, 0, 480, 540⟩ : Session).date = w4out.task.dueDate →
       (⟨0, .easy, 0, 480, 540⟩ : Session).hi ≤ w4out.task.dueMin ∧
       (⟨0, .easy, 0, 480, 540⟩ : Session).lo < w4out.task.dueMin)) :=
  ⟨by decide, by decide,
   claim4_deadline w4inp w4out (by decide) _ (by decide)⟩

/-- C7 -- Determinism: the engine is a pure function of the input record
(commitments, tasks, preferences and the explicitly supplied now); two
runs with identical input produce identical output. -/
theorem claim7_determinism (inp1 inp2 : Input) (h : inp1 = inp2) :
    generateSchedule inp1 = generateSchedule inp2 := by
  rw [h]

def w7inp : Input := ⟨[], [⟨30, 1, 1439, .easy⟩], defaultPrefs, 0, 480⟩

theorem claim7_witness :
    generateSchedule w7inp = generateSchedule w7inp :=
  claim7_determinism w7inp w7inp rfl

theorem runOuts_not_overdue (inp : Input) :
    ∀ o ∈ (runOf inp).2, ¬ o.status = Status.overdue := by
  obtain ⟨-, hout, -⟩ := engine_weak_facts inp
  intro o ho h
  obtain ⟨-, -, hst, -⟩ := hout o ho
  rw [hst] at h
  by_cases hr : o.remaining = 0
  · rw [if_pos hr] at h
    exact Status.noConfusion h
  · rw [if_neg hr] at h
    exact Status.noConfusion h

theorem runOuts_pending (inp : Input) :
    ∀ o ∈ (runOf inp).2, (o.tid, o.task) ∈ pendingOf inp := by
  obtain ⟨-, -, hmap⟩ := engine_weak_facts inp
  intro o ho
  have hmem : (o.tid, o.task) ∈
      (runOf inp).2.map (fun o => (o.tid, o.task)) :=
    List.mem_map_of_mem _ ho
  rw [hmap] at hmem
  exact ((rankTasks_perm _ _).mem_iff).mp hmem

theorem lateOuts_shape (inp : Input) :
    ∀ o ∈ lateOutsOf inp, o.sessions = [] ∧ o.status = Status.overdue ∧
      o.remaining = o.task.duration ∧ (o.tid, o.task) ∈ lateOf inp := by
  intro o ho
  obtain ⟨t, ht, rfl⟩ := List.mem_map.mp ho
  exact ⟨rfl, rfl, rfl, ht⟩

theorem mem_pendingOf {inp : Input} {x : ITask} (h : x ∈ pendingOf inp) :
    nowAbs inp ≤ dueAbs x.2 := by
  have h2 := List.mem_filter.mp h
  simpa using h2.2

theorem mem_lateOf {inp : Input} {x : ITask} (h : x ∈ lateOf inp) :
    dueAbs x.2 < nowAbs inp := by
  have h2 := List.mem_filter.mp h
  simpa using h2.2

/-- C5 -- Daily study cap: on every calendar date the total minutes of
emitted sessions stay within the configured cap (480 minutes by default),
and a date whose cumulative allocated minutes already meets the cap is
skipped entirely (no state change and no sessions). -/
theorem claim5_daily_cap (inp : Input) :
    (∀ d, sessMinutes ((generateSchedule inp).sessions.filter
        (fun s => s.date = d)) ≤ inp.prefs.cap) ∧
    defaultPrefs.cap = 480 ∧
    (∀ (t : ITask) (p : Prefs) (d rem : Nat) (st : AllocSt),
      p.cap ≤ st.alloc d → allocDate t p d rem st = (st, [], rem)) := by
  refine ⟨?_, rfl, ?_⟩
  · intro d
    rw [generateSchedule_eq]
    obtain ⟨hcap, -, -⟩ := engine_weak_facts inp
    obtain ⟨h1, h2⟩ := hcap d
    have hperm := (sortSessions_perm (sessionsOf (runOf inp).2)).filter
      (fun s => decide (s.date = d))
    have hsum : sessMinutes ((sortSessions
        (sessionsOf (runOf inp).2)).filter (fun s => s.date = d)) =
        sessMinutes ((sessionsOf (runOf inp).2).filter
          (fun s => s.date = d)) := by
      unfold sessMinutes
      exact (hperm.map Session.dur).sum_eq
    rw [hsum]
    omega
  · intro t p d rem st h
    simp [allocDate, h]

def w5inp : Input := ⟨[], [⟨600, 1, 1439, .hard⟩], defaultPrefs, 0, 480⟩

def w5st : AllocSt := ⟨fun _ => [], fun _ => 480⟩

theorem claim5_witness :
    sessMinutes ((generateSchedule w5inp).sessions.filter
      (fun s => s.date = 0)) ≤ w5inp.prefs.cap ∧
    allocDate (0, ⟨60, 1, 0, .easy⟩) defaultPrefs 0 60 w5st =
      (w5st, [], 60) :=
  ⟨(claim5_daily_cap w5inp).1 0,
   (claim5_daily_cap w5inp).2.2 (0, ⟨60, 1, 0, .easy⟩) defaultPrefs 0 60
     w5st (by decide)⟩

/-- C6 -- Overdue exclusion: a task already past its deadline at run
start gets no sessions, ends with status overdue and keeps its full
duration unplaced; conversely only such tasks are overdue; the overdue
summary count equals the number of these tasks; and every input task
appears in the outcome list exactly once (as a permutation of the indexed
input). -/
theorem claim6_overdue (inp : Input) :
    (∀ o ∈ (generateSchedule inp).outcomes,
       dueAbs o.task < nowAbs inp →
       o.sessions = [] ∧ o.status = Status.overdue ∧
       o.remaining = o.task.duration) ∧
    (∀ o ∈ (generateSchedule inp).outcomes,
       o.status = Status.overdue → dueAbs o.task < nowAbs inp) ∧
    (generateSchedule inp).nOverdue =
      (inp.tasks.filter (fun t => dueAbs t < nowAbs inp)).length ∧
    ((generateSchedule inp).outcomes.map (fun o => (o.tid, o.task))).Perm
      (indexTasks 0 inp.tasks) := by
  rw [generateSchedule_eq]
  refine ⟨?_, ?_, ?_, ?_⟩
  · intro o ho hlt
    rcases List.mem_append.mp ho with ho | ho
    · have hpend : nowAbs inp ≤ dueAbs o.task :=
        mem_pendingOf (runOuts_pending inp o ho)
      omega
    · obtain ⟨h1, h2, h3, -⟩ := lateOuts_shape inp o ho
      exact ⟨h1, h2, h3⟩
  · intro o ho hov
    rcases List.mem_append.mp ho with ho | ho
    · exact absurd hov (runOuts_not_overdue inp o ho)
    · obtain ⟨-, -, -, h4⟩ := lateOuts_shape inp o ho
      exact mem_lateOf h4
  · show countStatus Status.overdue ((runOf inp).2 ++ lateOutsOf inp) = _
    unfold countStatus
    rw [List.filter_append, List.length_append]
    have hrun : (runOf inp).2.filter
        (fun o => o.status = Status.overdue) = [] := by
      rw [List.filter_eq_nil_iff]
      intro o ho
      simpa using runOuts_not_overdue inp o ho
    have hlate : (lateOutsOf inp).filter
        (fun o => o.status = Status.overdue) = lateOutsOf inp := by
      rw [List.filter_eq_self]
      intro o ho
      obtain ⟨-, h2, -, -⟩ := lateOuts_shape inp o ho
      simp [h2]
    rw [hrun, hlate]
    have hlen : (lateOutsOf inp).length = (lateOf inp).length := by
      unfold lateOutsOf
      rw [List.length_map]
    rw [hlen]
    simp only [List.length_nil, Nat.zero_add]
    exact indexTasks_filter_length (fun t => dueAbs t < nowAbs inp) 0
      inp.tasks
  · rw [List.map_append]
    obtain ⟨-, -, hmap⟩ := engine_weak_facts inp
    rw [hmap]
    have hlatemap : (lateOutsOf inp).map (fun o => (o.tid, o.task)) =
        lateOf inp := by
      unfold lateOutsOf
      rw [List.map_map]
      have hid : ∀ l : List ITask, l.map (fun t => (t.1, t.2)) = l := by
        intro l
        induction l with
        | nil => rfl
        | cons x xs ih => simp [ih]
      exact hid (lateOf inp)
    rw [hlatemap]
    have hstep1 : (rankTasks (nowAbs inp) (pendingOf inp) ++
        lateOf inp).Perm (pendingOf inp ++ lateOf inp) :=
      (rankTasks_perm (nowAbs inp) (pendingOf inp)).append_right _
    refine hstep1.trans ?_
    unfold pendingOf lateOf
    have hcongr : (indexTasks 0 inp.tasks).filter
        (fun t => dueAbs t.2 < nowAbs inp) =
        (indexTasks 0 inp.tasks).filter
          (fun t => !(decide (nowAbs inp ≤ dueAbs t.2))) := by
      apply List.filter_congr
      intro x _
      rw [← decide_not]
      apply decide_eq_decide.mpr
      constructor
      · omega
      · omega
    rw [hcongr]
    exact List.filter_append_perm _ _

def w6inp : Input := ⟨[], [⟨60, 0, 420, .medium⟩], defaultPrefs, 0, 480⟩

def w6out : Outcome := ⟨0, ⟨60, 0, 420, .medium⟩, [], 60, .overdue⟩

theorem claim6_witness :
    (w6out.sessions = [] ∧ w6out.status = Status.overdue ∧
     w6out.remaining = w6out.task.duration) ∧
    (generateSchedule w6inp).nOverdue =
      (w6inp.tasks.filter (fun t => dueAbs t < nowAbs w6inp)).length :=
  ⟨(claim6_overdue w6inp).1 w6out (by decide) (by decide),
   (claim6_overdue w6inp).2.2.1⟩

theorem rankNotLt_spec (now : Nat) (a b : Task)
    (h : ¬ rankLt now b a) :
    scoreQ now a < scoreQ now b ∨
      (scoreQ now a = scoreQ now b ∧ dueAbs a ≤ dueAbs b) := by
  rcases lt_trichotomy (scaledScore now a) (scaledScore now b) with
    hlt | heq | hgt
  · left
    rw [scoreQ_eq_scaled, scoreQ_eq_scaled]
    exact div216000_lt.mpr hlt
  · right
    refine ⟨?_, ?_⟩
    · rw [scoreQ_eq_scaled, scoreQ_eq_scaled]
      exact div216000_eq.mpr heq
    · unfold rankLt at h
      omega
  · exact absurd (Or.inl hgt) h

/-- C2 -- Priority Ranker: the score of a task is
daysUntilDeadline / weight − duration / 1000 with weights Hard 2.0,
Medium 1.5, Easy 1.0; the ranker's comparison agrees exactly with
ascending rational score with earlier-deadline tie-break; the engine
processes the pending tasks in exactly that ranked order; and the ranking
is a stable permutation of the pending input (tasks with fully equal keys
keep their input order). -/
theorem claim2_priority_ranker (inp : Input) :
    (weightQ .hard = 2 ∧ weightQ .medium = 3 / 2 ∧ weightQ .easy = 1) ∧
    (∀ t : Task, scoreQ (nowAbs inp) t =
      ((dueAbs t : ℚ) - (nowAbs inp : ℚ)) / 1440 / weightQ t.dif -
        (t.duration : ℚ) / 1000) ∧
    (∀ t u : Task, rankLt (nowAbs inp) t u ↔
      (scoreQ (nowAbs inp) t < scoreQ (nowAbs inp) u ∨
       (scoreQ (nowAbs inp) t = scoreQ (nowAbs inp) u ∧
        dueAbs t < dueAbs u))) ∧
    (((generateSchedule inp).outcomes.filter
        (fun o => !(o.status = Status.overdue))).map
        (fun o => (o.tid, o.task)) =
      rankTasks (nowAbs inp) (pendingOf inp)) ∧
    (rankTasks (nowAbs inp) (pendingOf inp)).Pairwise
      (fun a b => scoreQ (nowAbs inp) a.2 < scoreQ (nowAbs inp) b.2 ∨
        (scoreQ (nowAbs inp) a.2 = scoreQ (nowAbs inp) b.2 ∧
         dueAbs a.2 ≤ dueAbs b.2)) ∧
    (rankTasks (nowAbs inp) (pendingOf inp)).Perm (pendingOf inp) ∧
    (∀ k, (rankTasks (nowAbs inp) (pendingOf inp)).filter
        (fun y => keyOf (nowAbs inp) y.2 = k) =
      (pendingOf inp).filter (fun y => keyOf (nowAbs inp) y.2 = k)) := by
  refine ⟨⟨rfl, rfl, rfl⟩, fun t => rfl, ?_, ?_, ?_,
    rankTasks_perm _ _, rankTasks_filter _ _⟩
  · intro t u
    rw [scoreQ_eq_scaled, scoreQ_eq_scaled, div216000_lt, div216000_eq]
    exact Iff.rfl
  · rw [generateSchedule_eq]
    show (((runOf inp).2 ++ lateOutsOf inp).filter
        (fun o => !(o.status = Status.overdue))).map
        (fun o => (o.tid, o.task)) = _
    rw [List.filter_append]
    have hrun : (runOf inp).2.filter
        (fun o => !(o.status = Status.overdue)) = (runOf inp).2 := by
      rw [List.filter_eq_self]
      intro o ho
      simpa using runOuts_not_overdue inp o ho
    have hlate : (lateOutsOf inp).filter
        (fun o => !(o.status = Status.overdue)) = [] := by
      rw [List.filter_eq_nil_iff]
      intro o ho
      obtain ⟨-, h2, -, -⟩ := lateOuts_shape inp o ho
      simp [h2]
    rw [hrun, hlate, List.append_nil]
    obtain ⟨-, -, hmap⟩ := engine_weak_facts inp
    exact hmap
  · refine List.Pairwise.imp ?_ (rankTasks_pairwise (nowAbs inp)
      (pendingOf inp))
    intro a b h
    exact rankNotLt_spec (nowAbs inp) a.2 b.2 h

def w2inp : Input :=
  ⟨[], [⟨120, 3, 1439, .hard⟩, ⟨30, 1, 1439, .easy⟩], defaultPrefs, 0,
   480⟩

theorem claim2_witness :
    ((generateSchedule w2inp).outcomes.filter
        (fun o => !(o.status = Status.overdue))).map
        (fun o => (o.tid, o.task)) =
      rankTasks (nowAbs w2inp) (pendingOf w2inp) :=
  (claim2_priority_ranker w2inp).2.2.2.1

/-
Frontend helpers, embedded from the JavaScript sources
(src/StudyTime_V4/frontend/script.js and src/unnamed/part_000,
src/unnamed/part_001).  JavaScript strings are modelled as lists of
characters.
-/

/-- A character of the JavaScript whitespace class (String.prototype.trim
and the regex class backslash-s). -/
def jsWs (c : Char) : Bool :=
  c.toNat = 9 || c.toNat = 10 || c.toNat = 11 || c.toNat = 12 ||
  c.toNat = 13 || c.toNat = 32 || c.toNat = 0xa0 || c.toNat = 0x1680 ||
  (0x2000 ≤ c.toNat && c.toNat ≤ 0x200a) || c.toNat = 0x2028 ||
  c.toNat = 0x2029 || c.toNat = 0x202f || c.toNat = 0x205f ||
  c.toNat = 0x3000 || c.toNat = 0xfeff

/-- JavaScript String.prototype.trim: strip whitespace from both ends. -/
def jsTrim (l : List Char) : List Char :=
  ((l.dropWhile jsWs).reverse.dropWhile jsWs).reverse

/-- An ASCII decimal digit. -/
def isDigitC (c : Char) : Bool := '0' ≤ c && c ≤ '9'

/-- Value of a digit string (the core of parseInt on an all-digit
match). -/
def digitsToNat (ds : List Char) : Nat :=
  ds.foldl (fun n c => 10 * n + (c.toNat - 48)) 0

/-- The 24-hour pattern of normalizeTimeInput, the regex
caret (d digit, one or two) colon (two digits) dollar: a four-character
form d:dd or a five-character form dd:dd, nothing else. -/
def match24 : List Char → Option (Nat × Nat)
  | [a, b, c, d] =>
    if b = ':' && isDigitC a && isDigitC c && isDigitC d then
      some (digitsToNat [a], digitsToNat [c, d])
    else none
  | [a, b, c, d, e] =>
    if c = ':' && isDigitC a && isDigitC b && isDigitC d && isDigitC e then
      some (digitsToNat [a, b], digitsToNat [d, e])
    else none
  | _ => none

/-- The tail of the 12-hour pattern: optional whitespace then exactly
am, pm, AM or PM at end of string; true means pm. -/
def ampmTail (l : List Char) : Option Bool :=
  match l.dropWhile jsWs with
  | ['a', 'm'] => some false
  | ['A', 'M'] => some false
  | ['p', 'm'] => some true
  | ['P', 'M'] => some true
  | _ => none

/-- The 12-hour pattern of normalizeTimeInput: one or two digits, a
colon, exactly two digits, then whitespace and an am/pm marker.  The
one-digit-hour and two-digit-hour alternatives are mutually exclusive (a
character cannot be both a digit and the colon), so trying them in either
order matches the regex. -/
def match12 : List Char → Option (Nat × Nat × Bool)
  | a :: b :: c :: d :: r =>
    if b = ':' && isDigitC a && isDigitC c && isDigitC d then
      match ampmTail r with
      | some pm => some (digitsToNat [a], digitsToNat [c, d], pm)
      | none => none
    else
      match r with
      | e :: r2 =>
        if c = ':' && isDigitC a && isDigitC b && isDigitC d &&
            isDigitC e then
          match ampmTail r2 with
          | some pm => some (digitsToNat [a, b], digitsToNat [d, e], pm)
          | none => none
        else none
      | [] => none
  | _ => none

/-- String(n).padStart(2, "0") for a number rendered from 0-99. -/
def pad2 (n : Nat) : List Char :=
  [Nat.digitChar (n / 10), Nat.digitChar (n % 10)]

/-- The canonical "HH:MM" output of normalizeTimeInput. -/
def fmtHHMM (hh mm : Nat) : List Char := pad2 hh ++ ':' :: pad2 mm

/-- The pm/am hour conversion of the 12-hour branch: pm with an hour
below 12 adds 12; 12 am becomes 0; other hours pass through. -/
def conv12 (hh : Nat) (pm : Bool) : Nat :=
  if pm && hh < 12 then hh + 12 else if !pm && hh == 12 then 0 else hh

/-- The shared range check and formatting step of both branches: the
padded string when the components are in 0-23 / 0-59, else null. -/
def clampOut (hh mm : Nat) : Option (List Char) :=
  if hh ≤ 23 && mm ≤ 59 then some (fmtHHMM hh mm) else none

/-- The 12-hour branch applied to its match result. -/
def norm12 : Option (Nat × Nat × Bool) → Option (List Char)
  | some (hh, mm, pm) => clampOut (conv12 hh pm) mm
  | none => none

/-- Embedded from script.js normalizeTimeInput (lines 132-164): reject a
falsy (empty) input, trim, try the 24-hour pattern (returning null when
its numbers are out of range, without falling through), then the 12-hour
pattern with the pm/am hour conversion, else null. -/
def normalizeTimeInput (l : List Char) : Option (List Char) :=
  if l = [] then none
  else
    match match24 (jsTrim l) with
    | some (hh, mm) => clampOut hh mm
    | none => norm12 (match12 (jsTrim l))

/-- parseInt(v, 10): skip leading whitespace, optional sign, then the
longest digit prefix; NaN (none) when no digit follows. -/
def jsParseInt10 (l : List Char) : Option Int :=
  match l.dropWhile jsWs with
  | '-' :: r =>
    if (r.takeWhile isDigitC) = [] then none
    else some (-(digitsToNat (r.takeWhile isDigitC) : Int))
  | '+' :: r =>
    if (r.takeWhile isDigitC) = [] then none
    else some ((digitsToNat (r.takeWhile isDigitC) : Int))
  | r =>
    if (r.takeWhile isDigitC) = [] then none
    else some ((digitsToNat (r.takeWhile isDigitC) : Int))

/-- JavaScript truthiness of a parseInt result: NaN and 0 are falsy. -/
def truthyNum : Option Int → Bool
  | none => false
  | some n => !(n == 0)

/-- String.prototype.split("/"). -/
def splitSlash : List Char → List (List Char)
  | [] => [[]]
  | '/' :: r => [] :: splitSlash r
  | c :: r =>
    match splitSlash r with
    | [] => [[c]]
    | p :: ps => (c :: p) :: ps

/-- String.prototype.padStart(2, "0") on a string. -/
def padStart2 (l : List Char) : List Char :=
  List.replicate (2 - l.length) '0' ++ l

/-- Embedded from script.js formatDateTime (lines 166-173): split the
date on "/", require truthy month, day and year, and build the ISO
string. -/
def formatDateTime (dateStr timeStr : List Char) : Option (List Char) :=
  if dateStr = [] ∨ timeStr = [] then none
  else
    match splitSlash dateStr with
    | m :: d :: y :: _ =>
      if m = [] ∨ d = [] ∨ y = [] then none
      else some (y ++ '-' :: padStart2 m ++ '-' :: padStart2 d ++
        'T' :: timeStr ++ [':', '0', '0'])
    | _ => none

/-- Embedded from script.js addTask (lines 301-318): the request is sent
iff the name, the parsed duration and the due date are truthy and
formatDateTime succeeds. -/
def addTaskValid (name durRaw dueDate dueTime : List Char) : Bool :=
  !name.isEmpty && truthyNum (jsParseInt10 durRaw) && !dueDate.isEmpty &&
    (formatDateTime dueDate dueTime).isSome

/-- Embedded from script.js addCourse (lines 186-198): the request is
sent iff the code is nonempty, both times normalize successfully and at
least one day is checked.  No comparison of start against end is
performed. -/
def addCourseValid (code startRaw endRaw : List Char)
    (days : List (List Char)) : Bool :=
  !code.isEmpty && (normalizeTimeInput startRaw).isSome &&
    (normalizeTimeInput endRaw).isSome && !days.isEmpty

/-- Minute-of-day value of a canonical "HH:MM" pair. -/
def timeVal (hh mm : Nat) : Nat := 60 * hh + mm

/-- Boolean string-prefix test. -/
def strStarts : List Char → List Char → Bool
  | [], _ => true
  | _ :: _, [] => false
  | p :: ps, c :: cs => p == c && strStarts ps cs

/-- The literal id prefixes used by the calendar for recurring events. -/
def courseIdP : List Char := ['c', 'o', 'u', 'r', 's', 'e', '-']

def breakIdP : List Char := ['b', 'r', 'e', 'a', 'k', '-']

def jobIdP : List Char := ['j', 'o', 'b', '-']

/-- Association-list view of the scheduledEventIds object. -/
def lookupId (m : List (List Char × Nat)) (k : List Char) : Option Nat :=
  match m with
  | [] => none
  | (k2, v) :: r => if k2 = k then some v else lookupId r k

/-- Embedded from src/unnamed/part_001 handleEventMove (lines 73-98):
return without persisting when the event has no id, when the id carries a
course-, break- or job- prefix, or when the scheduledEventIds map holds no
truthy database id for it; otherwise issue one PATCH carrying the moved
event's database id, new start, new end (defaulting to start + 60
minutes) and duration.  Times are modelled in minutes, so the JavaScript
millisecond rounding of the duration is exact.  A none result is the
frame case: no request is issued and no stored state changes. -/
def handleEventMove (eid : List Char) (m : List (List Char × Nat))
    (startAbs : Int) (endAbs : Option Int) :
    Option (Nat × Int × Int × Int) :=
  if eid.isEmpty || strStarts courseIdP eid || strStarts breakIdP eid ||
      strStarts jobIdP eid then none
  else
    match lookupId m eid with
    | none => none
    | some dbId =>
      if dbId = 0 then none
      else
        some (dbId, startAbs, endAbs.getD (startAbs + 60),
          endAbs.getD (startAbs + 60) - startAbs)

theorem isDigitC_digitChar {n : Nat} (h : n < 10) :
    isDigitC (Nat.digitChar n) = true := by
  interval_cases n <;> rfl

theorem digitChar_toNat {n : Nat} (h : n < 10) :
    (Nat.digitChar n).toNat - 48 = n := by
  interval_cases n <;> rfl

theorem digitChar_ne_colon {n : Nat} (h : n < 10) :
    (Nat.digitChar n = ':') = False := by
  interval_cases n <;> simp <;> decide

theorem digitChar_not_ws {n : Nat} (h : n < 10) :
    jsWs (Nat.digitChar n) = false := by
  interval_cases n <;> rfl

theorem digitsToNat_pad2 {n : Nat} (h : n < 100) :
    digitsToNat (pad2 n) = n := by
  unfold digitsToNat pad2
  simp only [List.foldl_cons, List.foldl_nil]
  rw [digitChar_toNat (by omega), digitChar_toNat (by omega)]
  omega

theorem dropWhile_cons_not {z : Char} {zs : List Char}
    (hz : jsWs z = false) :
    List.dropWhile jsWs (z :: zs) = z :: zs := by
  simp [List.dropWhile, hz]

theorem jsTrim_sandwich (x : Char) (xs : List Char) (y : Char)
    (hx : jsWs x = false) (hy : jsWs y = false) :
    jsTrim (x :: xs ++ [y]) = x :: xs ++ [y] := by
  unfold jsTrim
  have h1 : List.dropWhile jsWs ((x :: xs) ++ [y]) = (x :: xs) ++ [y] := by
    rw [List.cons_append, dropWhile_cons_not hx]
  rw [h1]
  have hrev : ((x :: xs) ++ [y]).reverse = y :: (x :: xs).reverse := by
    simp
  rw [hrev, dropWhile_cons_not hy]
  simp

/-- C9 -- normalizeTimeInput: every result is either null or a canonical
24-hour "HH:MM" with in-range components; a "12:MM AM" input converts to
"00:MM"; an "HH:MM PM" input with hour below 12 converts by adding 12 to
the hour; and any input matching neither the 24-hour nor the 12-hour
pattern yields null. -/
theorem claim9_normalize_time :
    (∀ l, normalizeTimeInput l = none ∨
      ∃ hh mm, hh ≤ 23 ∧ mm ≤ 59 ∧
        normalizeTimeInput l = some (fmtHHMM hh mm)) ∧
    (∀ mm, mm ≤ 59 →
      normalizeTimeInput
          ('1' :: '2' :: ':' :: pad2 mm ++ [' ', 'A', 'M']) =
        some (fmtHHMM 0 mm)) ∧
    (∀ h mm, h < 12 → mm ≤ 59 →
      normalizeTimeInput (pad2 h ++ ':' :: pad2 mm ++ [' ', 'P', 'M']) =
        some (fmtHHMM (h + 12) mm)) ∧
    (∀ l, match24 (jsTrim l) = none → match12 (jsTrim l) = none →
      normalizeTimeInput l = none) := by
  have hclamp : ∀ hh mm, clampOut hh mm = none ∨
      (hh ≤ 23 ∧ mm ≤ 59 ∧ clampOut hh mm = some (fmtHHMM hh mm)) := by
    intro hh mm
    unfold clampOut
    by_cases hb : (decide (hh ≤ 23) && decide (mm ≤ 59)) = true
    · right
      have hb2 := hb
      rw [Bool.and_eq_true] at hb2
      exact ⟨of_decide_eq_true hb2.1, of_decide_eq_true hb2.2,
        by rw [if_pos hb]⟩
    · left
      rw [if_neg hb]
  refine ⟨?_, ?_, ?_, ?_⟩
  · intro l
    by_cases hl : l = []
    · left
      simp [normalizeTimeInput, hl]
    · unfold normalizeTimeInput
      rw [if_neg hl]
      rcases h24 : match24 (jsTrim l) with - | ⟨hh, mm⟩
      · show norm12 (match12 (jsTrim l)) = none ∨ _
        rcases h12 : match12 (jsTrim l) with - | ⟨hh, mm, pm⟩
        · left
          rfl
        · show clampOut (conv12 hh pm) mm = none ∨ _
          rcases hclamp (conv12 hh pm) mm with hc | ⟨hc1, hc2, hc3⟩
          · left
            exact hc
          · right
            exact ⟨conv12 hh pm, mm, hc1, hc2, hc3⟩
      · show clampOut hh mm = none ∨ _
        rcases hclamp hh mm with hc | ⟨hc1, hc2, hc3⟩
        · left
          exact hc
        · right
          exact ⟨hh, mm, hc1, hc2, hc3⟩
  · intro mm hmm
    have hd1 := isDigitC_digitChar (n := mm / 10) (by omega)
    have hd2 := isDigitC_digitChar (n := mm % 10) (by omega)
    have hL : '1' :: '2' :: ':' :: pad2 mm ++ [' ', 'A', 'M'] =
        '1' :: ('2' :: ':' :: pad2 mm ++ [' ', 'A']) ++ ['M'] := by
      simp
    have htrim : jsTrim ('1' :: '2' :: ':' :: pad2 mm ++ [' ', 'A', 'M'])
        = '1' :: '2' :: ':' :: pad2 mm ++ [' ', 'A', 'M'] := by
      rw [hL, jsTrim_sandwich '1' _ 'M' (by rfl) (by rfl), ← hL]
    have hshape : '1' :: '2' :: ':' :: pad2 mm ++ [' ', 'A', 'M'] =
        ['1', '2', ':', Nat.digitChar (mm / 10), Nat.digitChar (mm % 10),
         ' ', 'A', 'M'] := by
      simp [pad2]
    have hv : digitsToNat [Nat.digitChar (mm / 10),
        Nat.digitChar (mm % 10)] = mm := digitsToNat_pad2 (by omega)
    have h12 : match12 (['1', '2', ':', Nat.digitChar (mm / 10),
        Nat.digitChar (mm % 10), ' ', 'A', 'M']) =
        some (12, mm, false) := by
      show (if ((':' : Char) = ':' && isDigitC '1' && isDigitC '2' &&
          isDigitC (Nat.digitChar (mm / 10)) &&
          isDigitC (Nat.digitChar (mm % 10)) : Bool) = true then
          match ampmTail [' ', 'A', 'M'] with
          | some pm => some (digitsToNat ['1', '2'],
              digitsToNat [Nat.digitChar (mm / 10),
                Nat.digitChar (mm % 10)], pm)
          | none => none
        else none) = some (12, mm, false)
      rw [if_pos (by rw [hd1, hd2]; rfl)]
      show some (digitsToNat ['1', '2'],
        digitsToNat [Nat.digitChar (mm / 10),
          Nat.digitChar (mm % 10)], false) = some (12, mm, false)
      rw [hv]
      rfl
    unfold normalizeTimeInput
    rw [if_neg (by simp), htrim, hshape]
    show norm12 (match12 (['1', '2', ':', Nat.digitChar (mm / 10),
      Nat.digitChar (mm % 10), ' ', 'A', 'M'])) = some (fmtHHMM 0 mm)
    rw [h12]
    show clampOut (conv12 12 false) mm = some (fmtHHMM 0 mm)
    have hc : conv12 12 false = 0 := rfl
    rw [hc]
    unfold clampOut
    rw [if_pos (by rw [Bool.and_eq_true]
                   exact ⟨decide_eq_true (by omega), decide_eq_true hmm⟩)]
  · intro h mm hh hmm
    have hd1 := isDigitC_digitChar (n := h / 10) (by omega)
    have hd2 := isDigitC_digitChar (n := h % 10) (by omega)
    have hd3 := isDigitC_digitChar (n := mm / 10) (by omega)
    have hd4 := isDigitC_digitChar (n := mm % 10) (by omega)
    have hL : pad2 h ++ ':' :: pad2 mm ++ [' ', 'P', 'M'] =
        Nat.digitChar (h / 10) :: (Nat.digitChar (h % 10) :: ':' ::
          pad2 mm ++ [' ', 'P']) ++ ['M'] := by
      simp [pad2]
    have htrim : jsTrim (pad2 h ++ ':' :: pad2 mm ++ [' ', 'P', 'M']) =
        pad2 h ++ ':' :: pad2 mm ++ [' ', 'P', 'M'] := by
      rw [hL, jsTrim_sandwich _ _ 'M' (digitChar_not_ws (by omega))
        (by rfl), ← hL]
    have hshape : pad2 h ++ ':' :: pad2 mm ++ [' ', 'P', 'M'] =
        [Nat.digitChar (h / 10), Nat.digitChar (h % 10), ':',
         Nat.digitChar (mm / 10), Nat.digitChar (mm % 10),
         ' ', 'P', 'M'] := by
      simp [pad2]
    have hv1 : digitsToNat [Nat.digitChar (h / 10),
        Nat.digitChar (h % 10)] = h := digitsToNat_pad2 (by omega)
    have hv2 : digitsToNat [Nat.digitChar (mm / 10),
        Nat.digitChar (mm % 10)] = mm := digitsToNat_pad2 (by omega)
    have hncolon : (Nat.digitChar (h % 10) = ':') = False :=
      digitChar_ne_colon (by omega)
    have h12 : match12 ([Nat.digitChar (h / 10), Nat.digitChar (h % 10),
        ':', Nat.digitChar (mm / 10), Nat.digitChar (mm % 10),
        ' ', 'P', 'M']) = some (h, mm, true) := by
      show (if (Nat.digitChar (h % 10) = ':' &&
          isDigitC (Nat.digitChar (h / 10)) &&
          isDigitC ':' &&
          isDigitC (Nat.digitChar (mm / 10)) : Bool) = true then
          match ampmTail [Nat.digitChar (mm % 10), ' ', 'P', 'M'] with
          | some pm => some (digitsToNat [Nat.digitChar (h / 10)],
              digitsToNat [':', Nat.digitChar (mm / 10)], pm)
          | none => none
        else
          match [Nat.digitChar (mm % 10), ' ', 'P', 'M'] with
          | e :: r2 =>
            if ((':' : Char) = ':' &&
                isDigitC (Nat.digitChar (h / 10)) &&
                isDigitC (Nat.digitChar (h % 10)) &&
                isDigitC (Nat.digitChar (mm / 10)) &&
                isDigitC e : Bool) = true then
              match ampmTail r2 with
              | some pm => some (digitsToNat [Nat.digitChar (h / 10),
                  Nat.digitChar (h % 10)],
                  digitsToNat [Nat.digitChar (mm / 10), e], pm)
              | none => none
            else none
          | [] => none) = some (h, mm, true)
      rw [if_neg (by simp [hncolon])]
      show (if ((':' : Char) = ':' &&
          isDigitC (Nat.digitChar (h / 10)) &&
          isDigitC (Nat.digitChar (h % 10)) &&
          isDigitC (Nat.digitChar (mm / 10)) &&
          isDigitC (Nat.digitChar (mm % 10)) : Bool) = true then
          match ampmTail [' ', 'P', 'M'] with
          | some pm => some (digitsToNat [Nat.digitChar (h / 10),
              Nat.digitChar (h % 10)],
              digitsToNat [Nat.digitChar (mm / 10),
                Nat.digitChar (mm % 10)], pm)
          | none => none
        else none) = some (h, mm, true)
      rw [if_pos (by rw [hd1, hd2, hd3, hd4]; rfl)]
      show some (digitsToNat [Nat.digitChar (h / 10),
        Nat.digitChar (h % 10)],
        digitsToNat [Nat.digitChar (mm / 10),
          Nat.digitChar (mm % 10)], true) = some (h, mm, true)
      rw [hv1, hv2]
    unfold normalizeTimeInput
    rw [if_neg (by simp [pad2]), htrim, hshape]
    show norm12 (match12 ([Nat.digitChar (h / 10),
      Nat.digitChar (h % 10), ':', Nat.digitChar (mm / 10),
      Nat.digitChar (mm % 10), ' ', 'P', 'M'])) =
      some (fmtHHMM (h + 12) mm)
    rw [h12]
    show clampOut (conv12 h true) mm = some (fmtHHMM (h + 12) mm)
    have hc : conv12 h true = h + 12 := by
      unfold conv12
      rw [if_pos (by rw [Bool.and_eq_true]
                     exact ⟨rfl, decide_eq_true hh⟩)]
    rw [hc]
    unfold clampOut
    rw [if_pos (by rw [Bool.and_eq_true]
                   exact ⟨decide_eq_true (by omega), decide_eq_true hmm⟩)]
  · intro l h24 h12
    by_cases hl : l = []
    · simp [normalizeTimeInput, hl]
    · unfold normalizeTimeInput
      rw [if_neg hl, h24]
      show norm12 (match12 (jsTrim l)) = none
      rw [h12]
      rfl

theorem claim9_witness :
    normalizeTimeInput ('1' :: '2' :: ':' :: pad2 30 ++ [' ', 'A', 'M'])
      = some (fmtHHMM 0 30) ∧
    normalizeTimeInput (pad2 7 ++ ':' :: pad2 45 ++ [' ', 'P', 'M']) =
      some (fmtHHMM 19 45) ∧
    (normalizeTimeInput ['9', ':', '3', '0'] = none ∨
      ∃ hh mm, hh ≤ 23 ∧ mm ≤ 59 ∧
        normalizeTimeInput ['9', ':', '3', '0'] =
          some (fmtHHMM hh mm)) ∧
    normalizeTimeInput ['x'] = none :=
  ⟨claim9_normalize_time.2.1 30 (by decide),
   claim9_normalize_time.2.2.1 7 45 (by decide) (by decide),
   claim9_normalize_time.1 ['9', ':', '3', '0'],
   claim9_normalize_time.2.2.2 ['x'] (by decide) (by decide)⟩

/-- C8 counterexample: the provided caller code accepts a course whose
normalized start 10:00 is not before its end 09:00, and accepts a task
whose duration input parses to the negative number -30; neither of the
rejections the claim describes happens. -/
theorem claim8_counterexample :
    addCourseValid ['X'] ['1', '0', ':', '0', '0']
      ['0', '9', ':', '0', '0'] [['M', 'o', 'n']] = true ∧
    normalizeTimeInput ['1', '0', ':', '0', '0'] = some (fmtHHMM 10 0) ∧
    normalizeTimeInput ['0', '9', ':', '0', '0'] = some (fmtHHMM 9 0) ∧
    ¬ timeVal 10 0 < timeVal 9 0 ∧
    addTaskValid ['T'] ['-', '3', '0']
      ['0', '1', '/', '0', '2', '/', '2', '0', '2', '5']
      ['2', '3', ':', '5', '9'] = true ∧
    jsParseInt10 ['-', '3', '0'] = some (-30) ∧ ¬ (0 : Int) < -30 := by
  refine ⟨by decide, by decide, by decide, by decide, by decide,
    by decide, by decide⟩

/-- C8 (amended) -- What the caller code actually validates: addTask
rejects an empty name, an empty due date, a duration that parses to NaN
or to exactly 0, and an unparseable date, but accepts negative durations;
addCourse rejects an empty code, unparseable times and an empty day list,
but never compares start against end; the difficulty tier comes from a
fixed select control and is not checked in code. -/
theorem claim8_caller_validation
    (name durRaw dueDate dueTime code startRaw endRaw : List Char)
    (days : List (List Char)) :
    (addTaskValid name durRaw dueDate dueTime = true →
      name ≠ [] ∧ dueDate ≠ [] ∧
      (∃ n : Int, jsParseInt10 durRaw = some n ∧ n ≠ 0) ∧
      (∃ d, formatDateTime dueDate dueTime = some d)) ∧
    (addCourseValid code startRaw endRaw days = true →
      code ≠ [] ∧ days ≠ [] ∧
      (∃ u, normalizeTimeInput startRaw = some u) ∧
      (∃ v, normalizeTimeInput endRaw = some v)) := by
  constructor
  · intro h
    unfold addTaskValid at h
    simp only [Bool.and_eq_true] at h
    obtain ⟨⟨⟨h1, h2⟩, h3⟩, h4⟩ := h
    refine ⟨?_, ?_, ?_, ?_⟩
    · intro contra
      subst contra
      simp at h1
    · intro contra
      subst contra
      simp at h3
    · rcases hj : jsParseInt10 durRaw with - | n
      · rw [hj] at h2
        simp [truthyNum] at h2
      · rw [hj] at h2
        refine ⟨n, rfl, ?_⟩
        simp [truthyNum] at h2
        intro contra
        subst contra
        simp at h2
    · rcases hf : formatDateTime dueDate dueTime with - | d
      · rw [hf] at h4
        simp at h4
      · exact ⟨d, rfl⟩
  · intro h
    unfold addCourseValid at h
    simp only [Bool.and_eq_true] at h
    obtain ⟨⟨⟨h1, h2⟩, h3⟩, h4⟩ := h
    refine ⟨?_, ?_, ?_, ?_⟩
    · intro contra
      subst contra
      simp at h1
    · intro contra
      subst contra
      simp at h4
    · rcases hn : normalizeTimeInput startRaw with - | u
      · rw [hn] at h2
        simp at h2
      · exact ⟨u, rfl⟩
    · rcases hn : normalizeTimeInput endRaw with - | v
      · rw [hn] at h3
        simp at h3
      · exact ⟨v, rfl⟩

theorem claim8_witness :
    (∃ n : Int, jsParseInt10 ['3', '0'] = some n ∧ n ≠ 0) ∧
    (∃ u, normalizeTimeInput ['0', '9', ':', '0', '0'] = some u) :=
  ⟨((claim8_caller_validation ['T'] ['3', '0']
      ['0', '1', '/', '0', '2', '/', '2', '0', '2', '5']
      ['2', '3', ':', '5', '9'] [] [] [] []).1 (by decide)).2.2.1,
   ((claim8_caller_validation [] [] [] [] ['C'] ['0', '9', ':', '0', '0']
      ['1', '0', ':', '0', '0'] [['M', 'o', 'n']]).2
      (by decide)).2.2.1⟩

/-- C10 -- handleEventMove frame property: a calendar event move or
resize persists nothing when the event has no id, when the id starts with
course-, break- or job-, or when the scheduledEventIds map has no entry
for it; and any persisted update carries a database id that the map
associates to the event's id. -/
theorem claim10_event_move_frame (eid : List Char)
    (m : List (List Char × Nat)) (s : Int) (e : Option Int) :
    ((eid = [] ∨ strStarts courseIdP eid = true ∨
      strStarts breakIdP eid = true ∨ strStarts jobIdP eid = true ∨
      lookupId m eid = none) →
      handleEventMove eid m s e = none) ∧
    (∀ r, handleEventMove eid m s e = some r →
      eid ≠ [] ∧ strStarts courseIdP eid = false ∧
      strStarts breakIdP eid = false ∧ strStarts jobIdP eid = false ∧
      lookupId m eid = some r.1) := by
  constructor
  · intro h
    unfold handleEventMove
    by_cases hg : (eid.isEmpty || strStarts courseIdP eid ||
        strStarts breakIdP eid || strStarts jobIdP eid) = true
    · rw [if_pos hg]
    · rw [if_neg hg]
      have hg2 := hg
      simp only [Bool.or_eq_true, not_or, Bool.not_eq_true] at hg2
      obtain ⟨⟨⟨hg1, hgc⟩, hgb⟩, hgj⟩ := hg2
      rcases h with h | h | h | h | h
      · subst h
        simp at hg1
      · rw [h] at hgc
        exact Bool.noConfusion hgc
      · rw [h] at hgb
        exact Bool.noConfusion hgb
      · rw [h] at hgj
        exact Bool.noConfusion hgj
      · rw [h]
  · intro r hr
    unfold handleEventMove at hr
    by_cases hg : (eid.isEmpty || strStarts courseIdP eid ||
        strStarts breakIdP eid || strStarts jobIdP eid) = true
    · rw [if_pos hg] at hr
      exact Option.noConfusion hr
    · rw [if_neg hg] at hr
      have hg2 := hg
      simp only [Bool.or_eq_true, not_or, Bool.not_eq_true] at hg2
      obtain ⟨⟨⟨hg1, hgc⟩, hgb⟩, hgj⟩ := hg2
      rcases hl : lookupId m eid with - | dbId
      · rw [hl] at hr
        exact Option.noConfusion hr
      · rw [hl] at hr
        have hr2 : (if dbId = 0 then none
            else some (dbId, s, e.getD (s + 60), e.getD (s + 60) - s)) =
            some r := hr
        by_cases hz : dbId = 0
        · rw [if_pos hz] at hr2
          exact Option.noConfusion hr2
        · rw [if_neg hz] at hr2
          have hre := Option.some.inj hr2
          refine ⟨?_, hgc, hgb, hgj, ?_⟩
          · intro contra
            subst contra
            simp at hg1
          · rw [← hre]

theorem claim10_witness :
    handleEventMove ['c', 'o', 'u', 'r', 's', 'e', '-', '1'] [] 0 none =
      none :=
  (claim10_event_move_frame ['c', 'o', 'u', 'r', 's', 'e', '-', '1'] []
    0 none).1 (Or.inr (Or.inl (by decide)))

end StudyTime
